import Mathlib

/-!
Verification of the deadlock / resource-allocation core of the
Operating-System-concepts-Visualization repository.

The Python sources embedded here are
`src/concepts/deadlock/algorithms.py` (class `DeadlockAlgorithms`, namespace
`DL` below) and `src/concepts/resource_allocation/algorithms.py`
(class `ResourceAllocationAlgorithms`, namespace `RA` below).

Modelling conventions:
- Python `int` is `Int`; machine overflow does not occur in Python.
- Python lists are `List`; `zip` truncates to the shorter list exactly as in
  Python.  Mutation of objects held in the `processes` / `resources` lists is
  modelled by explicit state passing: every mutating operation returns the
  updated lists alongside its result record.
- Python expressions that would raise at runtime (index errors on ragged
  vectors, `max([])`) are modelled total with junk values on the crashing
  branch; the theorems below carry explicit shape hypotheses whenever those
  branches could otherwise be reached.
- The unbounded `while` loops (safe-sequence scan, round-robin queue, DFS) are
  modelled with an explicit fuel/step structure; sufficiency of the fuel used
  by the entry points is proved, except for the round-robin queue, which
  really can run forever (see `rrLoop`).
-/

/-- `all(need <= work[j] for j, need in enumerate(need))`: componentwise `≤`
over the common prefix (in the source both vectors have the same length). -/
def vecLe (need work : List Int) : Bool :=
  (need.zip work).all fun pr => decide (pr.1 ≤ pr.2)

/-- `for j in range(len(work)): work[j] += alloc[j]` under equal lengths. -/
def vecAdd (work alloc : List Int) : List Int :=
  List.zipWith (· + ·) work alloc

/-- `for i, req in enumerate(v): xs[i] += v[i]`: add `v` onto the prefix of
`xs`, keeping the tail of `xs` beyond `v` unchanged (Python raises when `v` is
longer than `xs`; that branch returns the junk value `[]`). -/
def addPrefix : List Int → List Int → List Int
  | xs, [] => xs
  | [], _ :: _ => []
  | x :: xs, v :: vs => (x + v) :: addPrefix xs vs

/-- `for i, req in enumerate(v): xs[i] -= v[i]`, prefixwise as `addPrefix`. -/
def subPrefix : List Int → List Int → List Int
  | xs, [] => xs
  | [], _ :: _ => []
  | x :: xs, v :: vs => (x - v) :: subPrefix xs vs

/-- A resource row: `Resource(rid, total_instances)` with its mutable
`available_instances` field. -/
structure Resource where
  rid : String
  total_instances : Int
  available_instances : Int
deriving Repr, DecidableEq, Inhabited

/-- `for i, req in enumerate(v): resources[i].available_instances -= v[i]`. -/
def subAvail : List Resource → List Int → List Resource
  | rs, [] => rs
  | [], _ :: _ => []
  | r :: rs, v :: vs =>
      { r with available_instances := r.available_instances - v } :: subAvail rs vs

/-- `for i, rel in enumerate(v): resources[i].available_instances += v[i]`. -/
def addAvail : List Resource → List Int → List Resource
  | rs, [] => rs
  | [], _ :: _ => []
  | r :: rs, v :: vs =>
      { r with available_instances := r.available_instances + v } :: addAvail rs vs

namespace DL

/-- The `Process` class of `deadlock/algorithms.py`: pid, maximum claim,
current allocation and the stored need vector. -/
structure Process where
  pid : String
  max_resources : List Int
  allocated_resources : List Int
  need_resources : List Int
deriving Repr, DecidableEq, Inhabited

/-- The `Process.__init__` constructor: `need = [m - a for m, a in zip(max, alloc)]`. -/
def Process.make (pid : String) (maxR alloc : List Int) : Process :=
  ⟨pid, maxR, alloc, (maxR.zip alloc).map fun pr => pr.1 - pr.2⟩

end DL

/-- Result record of `bankers_algorithm`:
`{'safe': ..., 'safe_sequence': ..., 'message': ...}`. -/
structure BankersResult where
  safe : Bool
  safe_sequence : Option (List String)
  message : String
deriving Repr, DecidableEq, Inhabited

/-- The dictionary returned on the not-found scan. -/
def unsafeResult : BankersResult :=
  ⟨false, none, "System is not in safe state - potential deadlock"⟩

/-- The dictionary returned when every process finished. -/
def safeResult (seq : List String) : BankersResult :=
  ⟨true, some seq, "System is in safe state"⟩

namespace DL

/-- The inner `for i, process in enumerate(processes)` scan: first index `i`
with `not finish[i]` and `need_resources ≤ work` componentwise. -/
def findEligibleAux (work : List Int) (finish : List Bool) :
    Nat → List Process → Option (Nat × Process)
  | _, [] => none
  | i, p :: rest =>
      if !(finish.getD i false) && vecLe p.need_resources work then some (i, p)
      else findEligibleAux work finish (i + 1) rest

/-- Scan from index 0, as the Python `for` loop does. -/
def findEligible (work : List Int) (finish : List Bool) (ps : List Process) :
    Option (Nat × Process) :=
  findEligibleAux work finish 0 ps

/-- The `while len(safe_sequence) < len(processes)` loop of
`bankers_algorithm`, with explicit fuel.  Each successful pass extends
`safe_sequence` by one pid, so the entry fuel `processes.length` is enough;
the fuel-exhausted branch (first equation, guard still true) is unreachable
from `bankers_algorithm` and returns the junk value `unsafeResult`. -/
def bankersLoop (ps : List Process) :
    Nat → List Int → List Bool → List String → BankersResult
  | 0, _, _, seq =>
      if seq.length < ps.length then unsafeResult else safeResult seq
  | fuel + 1, work, finish, seq =>
      if seq.length < ps.length then
        match findEligible work finish ps with
        | some (i, p) =>
            bankersLoop ps fuel (vecAdd work p.allocated_resources)
              (finish.set i true) (seq ++ [p.pid])
        | none => unsafeResult
      else safeResult seq

/-- `DeadlockAlgorithms.bankers_algorithm(processes, resources)`. -/
def bankers_algorithm (ps : List Process) (rs : List Resource) : BankersResult :=
  bankersLoop ps ps.length (rs.map (·.available_instances))
    (List.replicate ps.length false) []

end DL

/-- Spec-side formulation of §4.2, for refinement comparison with the
transliterated code: the state is the supplied process list paired with its finished
flag; the scan selects the first unfinished process whose need fits the
working vector and marks it finished in place. -/
def specStep (working : List Int) :
    List (DL.Process × Bool) → Option (DL.Process × List (DL.Process × Bool))
  | [] => none
  | (p, fin) :: rest =>
      if !fin && vecLe p.need_resources working then some (p, (p, true) :: rest)
      else
        match specStep working rest with
        | none => none
        | some (q, rest') => some (q, (p, fin) :: rest')

/-- Spec-side formulation of §4.2: repeat the scan until every process is
finished (Safe, returning the order produced) or a full scan finds no
eligible process (Unsafe, the partial order discarded). -/
def checkSafetySpecLoop :
    Nat → List (DL.Process × Bool) → List Int → List String → BankersResult
  | 0, items, _, order =>
      if items.all (·.2) then safeResult order else unsafeResult
  | fuel + 1, items, working, order =>
      if items.all (·.2) then safeResult order
      else
        match specStep working items with
        | none => unsafeResult
        | some (p, items') =>
            checkSafetySpecLoop fuel items' (vecAdd working p.allocated_resources)
              (order ++ [p.pid])

/-- Spec-side formulation of §4.2: working vector starts at `available`, all
finished flags start false. -/
def checkSafetySpec (ps : List DL.Process) (rs : List Resource) : BankersResult :=
  checkSafetySpecLoop ps.length (ps.map fun p => (p, false))
    (rs.map (·.available_instances)) []


lemma findEligibleAux_cons (work : List Int) (finish : List Bool) (i : Nat)
    (p : DL.Process) (ps : List DL.Process) :
    DL.findEligibleAux work finish i (p :: ps) =
      if !(finish.getD i false) && vecLe p.need_resources work then some (i, p)
      else DL.findEligibleAux work finish (i + 1) ps := rfl

lemma specStep_cons (working : List Int) (p : DL.Process) (fin : Bool)
    (rest : List (DL.Process × Bool)) :
    specStep working ((p, fin) :: rest) =
      if !fin && vecLe p.need_resources working then some (p, (p, true) :: rest)
      else
        match specStep working rest with
        | none => none
        | some (q, rest') => some (q, (p, fin) :: rest') := rfl

lemma getD_append_off (pre suf : List Bool) (k : Nat) :
    (pre ++ suf).getD (pre.length + k) false = suf.getD k false := by
  induction pre with
  | nil => simp
  | cons a pre ih =>
      have h : (a :: pre).length + k = (pre.length + k) + 1 := by
        simp only [List.length_cons]; omega
      rw [h, List.cons_append, List.getD_cons_succ, ih]

lemma set_append_off (pre suf : List Bool) (k : Nat) (v : Bool) :
    (pre ++ suf).set (pre.length + k) v = pre ++ suf.set k v := by
  induction pre with
  | nil => simp
  | cons a pre ih =>
      have h : (a :: pre).length + k = (pre.length + k) + 1 := by
        simp only [List.length_cons]; omega
      rw [h, List.cons_append, List.set_cons_succ, ih, List.cons_append]

lemma specStep_findEligible (work : List Int) :
    ∀ (ps : List DL.Process) (pre suf : List Bool), suf.length = ps.length →
      (specStep work (ps.zip suf) = none →
        DL.findEligibleAux work (pre ++ suf) pre.length ps = none) ∧
      (∀ q items', specStep work (ps.zip suf) = some (q, items') →
        ∃ k, k < ps.length ∧ suf.getD k false = false ∧
          DL.findEligibleAux work (pre ++ suf) pre.length ps = some (pre.length + k, q) ∧
          items' = ps.zip (suf.set k true)) := by
  intro ps
  induction ps with
  | nil =>
      intro pre suf hlen
      constructor
      · intro _; simp [DL.findEligibleAux]
      · intro q items' h; simp [specStep] at h
  | cons p ps ih =>
      intro pre suf hlen
      cases suf with
      | nil => simp at hlen
      | cons f suf =>
        have hflen : suf.length = ps.length := by simpa using hlen
        have hget : (pre ++ f :: suf).getD pre.length false = f := by
          have h0 := getD_append_off pre (f :: suf) 0
          simpa using h0
        rw [List.zip_cons_cons]
        by_cases hcond : (!f && vecLe p.need_resources work) = true
        · constructor
          · intro h
            rw [specStep_cons, if_pos hcond] at h
            exact absurd h (by simp)
          · intro q items' h
            rw [specStep_cons, if_pos hcond] at h
            have hq : p = q := by
              have := congrArg (fun o => Option.map Prod.fst o) h
              simpa using this
            have hitems : items' = (p, true) :: ps.zip suf := by
              have := congrArg (fun o => Option.map Prod.snd o) h
              simpa using this.symm
            have hf : f = false := by
              cases f
              · rfl
              · simp at hcond
            refine ⟨0, by simp, by simp [hf], ?_, ?_⟩
            · rw [findEligibleAux_cons, hget, if_pos hcond]
              simp [hq]
            · rw [hitems, hf]
              simp [List.set]
        · have hstep2 :
              DL.findEligibleAux work (pre ++ f :: suf) pre.length (p :: ps) =
                DL.findEligibleAux work (pre ++ f :: suf) (pre.length + 1) ps := by
            rw [findEligibleAux_cons, hget, if_neg hcond]
          have assoc : pre ++ f :: suf = (pre ++ [f]) ++ suf := by simp
          have hlen1 : (pre ++ [f]).length = pre.length + 1 := by simp
          have ihh := ih (pre ++ [f]) suf hflen
          constructor
          · intro h
            rw [specStep_cons, if_neg hcond] at h
            have hnone : specStep work (ps.zip suf) = none := by
              revert h
              cases specStep work (ps.zip suf) with
              | none => intro _; rfl
              | some x => intro h; cases x; simp at h
            rw [hstep2, assoc, ← hlen1]
            exact ihh.1 hnone
          · intro q items' h
            rw [specStep_cons, if_neg hcond] at h
            cases hrec : specStep work (ps.zip suf) with
            | none => rw [hrec] at h; simp at h
            | some x =>
                cases x with
                | mk q' rest' =>
                  rw [hrec] at h
                  have hq : q' = q := by
                    have := congrArg (fun o => Option.map Prod.fst o) h
                    simpa using this
                  have hitems : items' = (p, f) :: rest' := by
                    have := congrArg (fun o => Option.map Prod.snd o) h
                    simpa using this.symm
                  obtain ⟨k, hk, hkf, hfind, hrest⟩ := ihh.2 q' rest' hrec
                  refine ⟨k + 1, by simpa using Nat.succ_lt_succ hk, by simpa using hkf, ?_, ?_⟩
                  · rw [hstep2, assoc, ← hlen1]
                    rw [hq] at hfind
                    have harith : (pre ++ [f]).length + k = pre.length + (k + 1) := by
                      rw [hlen1]; omega
                    rw [harith] at hfind
                    exact hfind
                  · rw [hitems, hrest, List.set_cons_succ, List.zip_cons_cons]

lemma count_true_set (l : List Bool) (k : Nat) (hk : k < l.length)
    (hf : l.getD k false = false) :
    (l.set k true).count true = l.count true + 1 := by
  induction l generalizing k with
  | nil => simp at hk
  | cons a l ih =>
      cases k with
      | zero =>
          have ha : a = false := by simpa using hf
          subst ha
          simp [List.set, List.count_cons]
      | succ k =>
          have hk' : k < l.length := by simpa using hk
          have hf' : l.getD k false = false := by simpa using hf
          have hrec := ih k hk' hf'
          cases a <;> simp [List.set_cons_succ, List.count_cons, hrec]

lemma all_id_iff_count (l : List Bool) :
    (l.all (fun b => b) = true) ↔ List.count true l = l.length := by
  rw [List.count_eq_length, List.all_eq_true]
  constructor
  · intro h b hb
    exact (h b hb).symm
  · intro h b hb
    exact (h b hb).symm

lemma zip_all_snd (ps : List DL.Process) (suf : List Bool)
    (hlen : suf.length = ps.length) :
    ((ps.zip suf).all (·.2)) = suf.all (fun b => b) := by
  induction ps generalizing suf with
  | nil =>
      cases suf with
      | nil => rfl
      | cons f suf => simp at hlen
  | cons p ps ih =>
      cases suf with
      | nil => simp at hlen
      | cons f suf =>
          have hflen : suf.length = ps.length := by simpa using hlen
          rw [List.zip_cons_cons, List.all_cons, List.all_cons, ih suf hflen]

lemma bankersLoop_eq_specLoop (ps : List DL.Process) (fuel : Nat) :
    ∀ (suf : List Bool) (work : List Int) (seq : List String),
      suf.length = ps.length → suf.count true = seq.length →
      DL.bankersLoop ps fuel work suf seq =
        checkSafetySpecLoop fuel (ps.zip suf) work seq := by
  induction fuel with
  | zero =>
      intro suf work seq hlen hcount
      have hall := zip_all_snd ps suf hlen
      by_cases hfin : ((ps.zip suf).all (·.2)) = true
      · have hc : suf.count true = suf.length :=
          (all_id_iff_count suf).1 (hall ▸ hfin)
        have hnlt : ¬ seq.length < ps.length := by omega
        simp [DL.bankersLoop, checkSafetySpecLoop, hfin, hnlt]
      · have hc : suf.count true ≠ suf.length := fun hc =>
          hfin (hall.symm ▸ (all_id_iff_count suf).2 hc)
        have hle : suf.count true ≤ suf.length := List.count_le_length _ _
        have hlt : seq.length < ps.length := by omega
        simp [DL.bankersLoop, checkSafetySpecLoop, hfin, hlt]
  | succ fuel ihf =>
      intro suf work seq hlen hcount
      have hall := zip_all_snd ps suf hlen
      by_cases hfin : ((ps.zip suf).all (·.2)) = true
      · have hc : suf.count true = suf.length :=
          (all_id_iff_count suf).1 (hall ▸ hfin)
        have hnlt : ¬ seq.length < ps.length := by omega
        simp [DL.bankersLoop, checkSafetySpecLoop, hfin, hnlt]
      · have hc : suf.count true ≠ suf.length := fun hc =>
          hfin (hall.symm ▸ (all_id_iff_count suf).2 hc)
        have hle : suf.count true ≤ suf.length := List.count_le_length _ _
        have hlt : seq.length < ps.length := by omega
        have corr := specStep_findEligible work ps [] suf hlen
        cases hstep : specStep work (ps.zip suf) with
        | none =>
            have hfindN : DL.findEligible work suf ps = none := by
              have := corr.1 hstep
              simpa [DL.findEligible] using this
            simp [DL.bankersLoop, checkSafetySpecLoop, hfin, hlt, hstep, hfindN]
        | some x =>
            cases x with
            | mk q items' =>
              obtain ⟨k, hk, hkf, hfind, hitems⟩ := corr.2 q items' hstep
              have hfind0 : DL.findEligible work suf ps = some (k, q) := by
                have := hfind
                simpa [DL.findEligible] using this
              have hrec := ihf (suf.set k true)
                (vecAdd work q.allocated_resources) (seq ++ [q.pid])
                (by simpa using hlen)
                (by
                  rw [count_true_set suf k (by omega) hkf]
                  simp [hcount])
              rw [← hitems] at hrec
              calc DL.bankersLoop ps (fuel + 1) work suf seq
                  = DL.bankersLoop ps fuel (vecAdd work q.allocated_resources)
                      (suf.set k true) (seq ++ [q.pid]) := by
                    simp [DL.bankersLoop, hlt, hfind0]
                _ = checkSafetySpecLoop fuel items'
                      (vecAdd work q.allocated_resources) (seq ++ [q.pid]) := hrec
                _ = checkSafetySpecLoop (fuel + 1) (ps.zip suf) work seq := by
                    simp [checkSafetySpecLoop, hfin, hstep]

lemma zip_replicate_false (ps : List DL.Process) :
    ps.zip (List.replicate ps.length false) = ps.map fun p => (p, false) := by
  induction ps with
  | nil => rfl
  | cons p ps ih => simp [List.replicate, List.zip_cons_cons, ih]

/-- C1: `bankers_algorithm` follows the fixed deterministic scan contract of
the spec, §4.2: working vector initialized to `available`, per-process
finished flags, repeated scans in supplied order selecting the first
unfinished process whose need fits, restart after each grant, Unsafe with no
order when a full scan finds nothing, Safe with the produced sequence when
every process finishes. -/
theorem bankers_algorithm_matches_spec_scan (ps : List DL.Process)
    (rs : List Resource) :
    DL.bankers_algorithm ps rs = checkSafetySpec ps rs := by
  unfold DL.bankers_algorithm checkSafetySpec
  rw [← zip_replicate_false ps]
  exact bankersLoop_eq_specLoop ps ps.length (List.replicate ps.length false)
    (rs.map (·.available_instances)) [] (by simp)
    (by simp [List.count_replicate])

/-- Result record `{'granted': ..., 'message': ...}` of the request paths. -/
structure RequestResult where
  granted : Bool
  message : String
deriving Repr, DecidableEq, Inhabited

namespace DL

/-- The grant mutation of `simulate_request`:
`for i, req in enumerate(request): allocated[i] += req; need[i] -= req`,
applied to the first process whose pid matches (`next(p for p in ...)`). -/
def updateFirstGrant : List Process → String → List Int → List Process
  | [], _, _ => []
  | p :: rest, pid, request =>
      if p.pid == pid then
        { p with
            allocated_resources := addPrefix p.allocated_resources request,
            need_resources := subPrefix p.need_resources request } :: rest
      else p :: updateFirstGrant rest pid request

/-- `DeadlockAlgorithms.simulate_request(processes, resources, process_id,
request)`.  Python mutates the live `process` object and `resources` only on
the safe path; all denial paths leave them untouched.  State passing returns
the (possibly updated) lists alongside the result record. -/
def simulate_request (ps : List Process) (rs : List Resource)
    (process_id : String) (request : List Int) :
    RequestResult × List Process × List Resource :=
  match ps.find? (fun p => p.pid == process_id) with
  | none => (⟨false, "Process " ++ process_id ++ " not found"⟩, ps, rs)
  | some process =>
      if (request.zip process.need_resources).any (fun pr => decide (pr.1 > pr.2)) then
        (⟨false, "Request exceeds maximum claim"⟩, ps, rs)
      else if (request.zip (rs.map (·.available_instances))).any
          (fun pr => decide (pr.1 > pr.2)) then
        (⟨false, "Request exceeds available resources"⟩, ps, rs)
      else
        let temp_ps := updateFirstGrant ps process_id request
        let temp_rs := subAvail rs request
        if (bankers_algorithm temp_ps temp_rs).safe then
          (⟨true, "Request granted"⟩, updateFirstGrant ps process_id request,
            subAvail rs request)
        else
          (⟨false, "Request would lead to unsafe state"⟩, ps, rs)

end DL

namespace RA

/-- The `Process` class of `resource_allocation/algorithms.py`; identical to
the deadlock one plus `priority`, `arrival_time`, `wait_time`, `finish_time`. -/
structure Process where
  pid : String
  max_resources : List Int
  allocated_resources : List Int
  need_resources : List Int
  priority : Int
  arrival_time : Int
  wait_time : Int
  finish_time : Option Int
deriving Repr, DecidableEq, Inhabited

/-- The `Process.__init__` constructor of the resource-allocation module. -/
def Process.make (pid : String) (maxR alloc : List Int)
    (priority arrival : Int) : Process :=
  ⟨pid, maxR, alloc, (maxR.zip alloc).map (fun pr => pr.1 - pr.2),
    priority, arrival, 0, none⟩

/-- Projection onto the deadlock module process (same pid / max / allocated /
need data; used to state that the two copied implementations agree). -/
def Process.toDL (p : Process) : DL.Process :=
  ⟨p.pid, p.max_resources, p.allocated_resources, p.need_resources⟩

/-- The inner scan of `ResourceAllocationAlgorithms.bankers_algorithm`, a
verbatim copy of the deadlock-module one. -/
def findEligibleAux (work : List Int) (finish : List Bool) :
    Nat → List Process → Option (Nat × Process)
  | _, [] => none
  | i, p :: rest =>
      if !(finish.getD i false) && vecLe p.need_resources work then some (i, p)
      else findEligibleAux work finish (i + 1) rest

/-- Scan from index 0. -/
def findEligible (work : List Int) (finish : List Bool) (ps : List Process) :
    Option (Nat × Process) :=
  findEligibleAux work finish 0 ps

/-- The scan loop of `ResourceAllocationAlgorithms.bankers_algorithm`, a
verbatim copy of the deadlock-module one. -/
def bankersLoop (ps : List Process) :
    Nat → List Int → List Bool → List String → BankersResult
  | 0, _, _, seq =>
      if seq.length < ps.length then unsafeResult else safeResult seq
  | fuel + 1, work, finish, seq =>
      if seq.length < ps.length then
        match findEligible work finish ps with
        | some (i, p) =>
            bankersLoop ps fuel (vecAdd work p.allocated_resources)
              (finish.set i true) (seq ++ [p.pid])
        | none => unsafeResult
      else safeResult seq

/-- `ResourceAllocationAlgorithms.bankers_algorithm(processes, resources)`. -/
def bankers_algorithm (ps : List Process) (rs : List Resource) : BankersResult :=
  bankersLoop ps ps.length (rs.map (·.available_instances))
    (List.replicate ps.length false) []

/-- The grant mutation on the first pid match, as in the deadlock module. -/
def updateFirstGrant : List Process → String → List Int → List Process
  | [], _, _ => []
  | p :: rest, pid, request =>
      if p.pid == pid then
        { p with
            allocated_resources := addPrefix p.allocated_resources request,
            need_resources := subPrefix p.need_resources request } :: rest
      else p :: updateFirstGrant rest pid request

/-- `ResourceAllocationAlgorithms.simulate_request_bankers`, a verbatim copy
of `DeadlockAlgorithms.simulate_request`. -/
def simulate_request_bankers (ps : List Process) (rs : List Resource)
    (process_id : String) (request : List Int) :
    RequestResult × List Process × List Resource :=
  match ps.find? (fun p => p.pid == process_id) with
  | none => (⟨false, "Process " ++ process_id ++ " not found"⟩, ps, rs)
  | some process =>
      if (request.zip process.need_resources).any (fun pr => decide (pr.1 > pr.2)) then
        (⟨false, "Request exceeds maximum claim"⟩, ps, rs)
      else if (request.zip (rs.map (·.available_instances))).any
          (fun pr => decide (pr.1 > pr.2)) then
        (⟨false, "Request exceeds available resources"⟩, ps, rs)
      else
        let temp_ps := updateFirstGrant ps process_id request
        let temp_rs := subAvail rs request
        if (bankers_algorithm temp_ps temp_rs).safe then
          (⟨true, "Request granted"⟩, updateFirstGrant ps process_id request,
            subAvail rs request)
        else
          (⟨false, "Request would lead to unsafe state"⟩, ps, rs)

end RA

lemma toDL_pid (p : RA.Process) : p.toDL.pid = p.pid := rfl

lemma toDL_need (p : RA.Process) : p.toDL.need_resources = p.need_resources := rfl

lemma toDL_alloc (p : RA.Process) :
    p.toDL.allocated_resources = p.allocated_resources := rfl

lemma findEligibleAux_cons_RA (work : List Int) (finish : List Bool) (i : Nat)
    (p : RA.Process) (ps : List RA.Process) :
    RA.findEligibleAux work finish i (p :: ps) =
      if !(finish.getD i false) && vecLe p.need_resources work then some (i, p)
      else RA.findEligibleAux work finish (i + 1) ps := rfl

lemma findEligibleAux_toDL (work : List Int) (finish : List Bool) :
    ∀ (i : Nat) (ps : List RA.Process),
      DL.findEligibleAux work finish i (ps.map RA.Process.toDL) =
        (RA.findEligibleAux work finish i ps).map fun x => (x.1, x.2.toDL) := by
  intro i ps
  induction ps generalizing i with
  | nil => rfl
  | cons p rest ih =>
      rw [List.map_cons, findEligibleAux_cons, findEligibleAux_cons_RA, toDL_need]
      by_cases h : (!(finish.getD i false) && vecLe p.need_resources work) = true
      · rw [if_pos h, if_pos h]; rfl
      · rw [if_neg h, if_neg h]; exact ih (i + 1)

lemma bankersLoop_toDL (ps : List RA.Process) (fuel : Nat) :
    ∀ (work : List Int) (finish : List Bool) (seq : List String),
      RA.bankersLoop ps fuel work finish seq =
        DL.bankersLoop (ps.map RA.Process.toDL) fuel work finish seq := by
  induction fuel with
  | zero =>
      intro work finish seq
      simp [RA.bankersLoop, DL.bankersLoop]
  | succ fuel ih =>
      intro work finish seq
      by_cases hlt : seq.length < ps.length
      · cases hfind : RA.findEligible work finish ps with
        | none =>
            have hdl : DL.findEligible work finish (ps.map RA.Process.toDL) = none := by
              unfold DL.findEligible
              rw [findEligibleAux_toDL]
              unfold RA.findEligible at hfind
              rw [hfind]
              rfl
            simp [RA.bankersLoop, DL.bankersLoop, hlt, hfind, hdl]
        | some x =>
            cases x with
            | mk i p =>
              have hdl : DL.findEligible work finish (ps.map RA.Process.toDL) =
                  some (i, p.toDL) := by
                unfold DL.findEligible
                rw [findEligibleAux_toDL]
                unfold RA.findEligible at hfind
                rw [hfind]
                rfl
              simp [RA.bankersLoop, DL.bankersLoop, hlt, hfind, hdl,
                toDL_alloc, toDL_pid, ih]
      · simp [RA.bankersLoop, DL.bankersLoop, hlt]

lemma bankers_algorithm_toDL (ps : List RA.Process) (rs : List Resource) :
    RA.bankers_algorithm ps rs =
      DL.bankers_algorithm (ps.map RA.Process.toDL) rs := by
  unfold RA.bankers_algorithm DL.bankers_algorithm
  rw [bankersLoop_toDL]
  simp

lemma find?_toDL (ps : List RA.Process) (pid : String) :
    (ps.map RA.Process.toDL).find? (fun p => p.pid == pid) =
      (ps.find? (fun p => p.pid == pid)).map RA.Process.toDL := by
  induction ps with
  | nil => rfl
  | cons p rest ih =>
      by_cases h : (p.pid == pid) = true
      · simp [List.find?, toDL_pid, h]
      · simp [List.find?, toDL_pid, h, ih]

lemma updateFirstGrant_toDL (pid : String) (request : List Int) :
    ∀ ps : List RA.Process,
      (RA.updateFirstGrant ps pid request).map RA.Process.toDL =
        DL.updateFirstGrant (ps.map RA.Process.toDL) pid request := by
  intro ps
  induction ps with
  | nil => rfl
  | cons p rest ih =>
      by_cases h : (p.pid == pid) = true
      · simp [RA.updateFirstGrant, DL.updateFirstGrant, toDL_pid, h]
        rfl
      · simp [RA.updateFirstGrant, DL.updateFirstGrant, toDL_pid, h, ih]

lemma simulate_request_toDL (ps : List RA.Process) (rs : List Resource)
    (pid : String) (request : List Int) :
    (RA.simulate_request_bankers ps rs pid request).1 =
        (DL.simulate_request (ps.map RA.Process.toDL) rs pid request).1 ∧
      (RA.simulate_request_bankers ps rs pid request).2.1.map RA.Process.toDL =
        (DL.simulate_request (ps.map RA.Process.toDL) rs pid request).2.1 ∧
      (RA.simulate_request_bankers ps rs pid request).2.2 =
        (DL.simulate_request (ps.map RA.Process.toDL) rs pid request).2.2 := by
  unfold RA.simulate_request_bankers DL.simulate_request
  rw [find?_toDL]
  cases hfind : ps.find? (fun p => p.pid == pid) with
  | none => simp
  | some process =>
      have hb : DL.bankers_algorithm
          (DL.updateFirstGrant (ps.map RA.Process.toDL) pid request)
          (subAvail rs request) =
        RA.bankers_algorithm (RA.updateFirstGrant ps pid request)
          (subAvail rs request) := by
        rw [bankers_algorithm_toDL, updateFirstGrant_toDL]
      simp only [Option.map_some']
      by_cases h1 : ((request.zip process.need_resources).any
          (fun pr => decide (pr.1 > pr.2))) = true
      · simp [toDL_need, h1]
      · by_cases h2 : ((request.zip (rs.map (·.available_instances))).any
            (fun pr => decide (pr.1 > pr.2))) = true
        · simp [toDL_need, h1, h2]
        · by_cases h3 : (RA.bankers_algorithm
              (RA.updateFirstGrant ps pid request) (subAvail rs request)).safe = true
          · simp [toDL_need, h1, h2, hb, h3, updateFirstGrant_toDL]
          · simp [toDL_need, h1, h2, hb, h3]

lemma DL_simulate_denied_unchanged (ps : List DL.Process) (rs : List Resource)
    (pid : String) (request : List Int) :
    (DL.simulate_request ps rs pid request).1.granted = false →
      (DL.simulate_request ps rs pid request).2.1 = ps ∧
      (DL.simulate_request ps rs pid request).2.2 = rs := by
  unfold DL.simulate_request
  cases hfind : ps.find? (fun p => p.pid == pid) with
  | none => intro _; exact ⟨rfl, rfl⟩
  | some process =>
      by_cases h1 : ((request.zip process.need_resources).any
          (fun pr => decide (pr.1 > pr.2))) = true
      · simp [h1]
      · by_cases h2 : ((request.zip (rs.map (·.available_instances))).any
            (fun pr => decide (pr.1 > pr.2))) = true
        · simp [h1, h2]
        · by_cases h3 : (DL.bankers_algorithm (DL.updateFirstGrant ps pid request)
              (subAvail rs request)).safe = true
          · simp [h1, h2, h3]
          · simp [h1, h2, h3]

lemma DL_simulate_granted_applies (ps : List DL.Process) (rs : List Resource)
    (pid : String) (request : List Int) :
    (DL.simulate_request ps rs pid request).1.granted = true →
      (DL.simulate_request ps rs pid request).2.1 =
        DL.updateFirstGrant ps pid request ∧
      (DL.simulate_request ps rs pid request).2.2 = subAvail rs request := by
  unfold DL.simulate_request
  cases hfind : ps.find? (fun p => p.pid == pid) with
  | none => simp
  | some process =>
      by_cases h1 : ((request.zip process.need_resources).any
          (fun pr => decide (pr.1 > pr.2))) = true
      · simp [h1]
      · by_cases h2 : ((request.zip (rs.map (·.available_instances))).any
            (fun pr => decide (pr.1 > pr.2))) = true
        · simp [h1, h2]
        · by_cases h3 : (DL.bankers_algorithm (DL.updateFirstGrant ps pid request)
              (subAvail rs request)).safe = true
          · simp [h1, h2, h3]
          · simp [h1, h2, h3]

lemma RA_simulate_denied_unchanged (ps : List RA.Process) (rs : List Resource)
    (pid : String) (request : List Int) :
    (RA.simulate_request_bankers ps rs pid request).1.granted = false →
      (RA.simulate_request_bankers ps rs pid request).2.1 = ps ∧
      (RA.simulate_request_bankers ps rs pid request).2.2 = rs := by
  unfold RA.simulate_request_bankers
  cases hfind : ps.find? (fun p => p.pid == pid) with
  | none => intro _; exact ⟨rfl, rfl⟩
  | some process =>
      by_cases h1 : ((request.zip process.need_resources).any
          (fun pr => decide (pr.1 > pr.2))) = true
      · simp [h1]
      · by_cases h2 : ((request.zip (rs.map (·.available_instances))).any
            (fun pr => decide (pr.1 > pr.2))) = true
        · simp [h1, h2]
        · by_cases h3 : (RA.bankers_algorithm (RA.updateFirstGrant ps pid request)
              (subAvail rs request)).safe = true
          · simp [h1, h2, h3]
          · simp [h1, h2, h3]

lemma RA_simulate_granted_applies (ps : List RA.Process) (rs : List Resource)
    (pid : String) (request : List Int) :
    (RA.simulate_request_bankers ps rs pid request).1.granted = true →
      (RA.simulate_request_bankers ps rs pid request).2.1 =
        RA.updateFirstGrant ps pid request ∧
      (RA.simulate_request_bankers ps rs pid request).2.2 = subAvail rs request := by
  unfold RA.simulate_request_bankers
  cases hfind : ps.find? (fun p => p.pid == pid) with
  | none => simp
  | some process =>
      by_cases h1 : ((request.zip process.need_resources).any
          (fun pr => decide (pr.1 > pr.2))) = true
      · simp [h1]
      · by_cases h2 : ((request.zip (rs.map (·.available_instances))).any
            (fun pr => decide (pr.1 > pr.2))) = true
        · simp [h1, h2]
        · by_cases h3 : (RA.bankers_algorithm (RA.updateFirstGrant ps pid request)
              (subAvail rs request)).safe = true
          · simp [h1, h2, h3]
          · simp [h1, h2, h3]

/-- C2: `simulate_request` (both copies) is transactional: every denial path
returns the live process and resource lists completely unmodified, and only a
grant applies the request mutation to the live ledger. -/
theorem simulate_request_transactional :
    ∀ (psD : List DL.Process) (psR : List RA.Process) (rs : List Resource)
      (pid : String) (request : List Int),
      ((DL.simulate_request psD rs pid request).1.granted = false →
        (DL.simulate_request psD rs pid request).2.1 = psD ∧
        (DL.simulate_request psD rs pid request).2.2 = rs) ∧
      ((DL.simulate_request psD rs pid request).1.granted = true →
        (DL.simulate_request psD rs pid request).2.1 =
          DL.updateFirstGrant psD pid request ∧
        (DL.simulate_request psD rs pid request).2.2 = subAvail rs request) ∧
      ((RA.simulate_request_bankers psR rs pid request).1.granted = false →
        (RA.simulate_request_bankers psR rs pid request).2.1 = psR ∧
        (RA.simulate_request_bankers psR rs pid request).2.2 = rs) ∧
      ((RA.simulate_request_bankers psR rs pid request).1.granted = true →
        (RA.simulate_request_bankers psR rs pid request).2.1 =
          RA.updateFirstGrant psR pid request ∧
        (RA.simulate_request_bankers psR rs pid request).2.2 = subAvail rs request) :=
  fun psD psR rs pid request =>
    ⟨DL_simulate_denied_unchanged psD rs pid request,
     DL_simulate_granted_applies psD rs pid request,
     RA_simulate_denied_unchanged psR rs pid request,
     RA_simulate_granted_applies psR rs pid request⟩

/-- The classic Scenario A / B ledger state of the spec, §8, with the pid
convention of the GUI (first process is `P1`): allocations
`[0,1,0],[2,0,0],[3,0,2],[2,1,1],[0,0,2]`, totals `[10,5,7]`, so
`available = [3,3,2]`. -/
def psB : List DL.Process :=
  [DL.Process.make "P1" [7, 5, 3] [0, 1, 0],
   DL.Process.make "P2" [3, 2, 2] [2, 0, 0],
   DL.Process.make "P3" [9, 0, 2] [3, 0, 2],
   DL.Process.make "P4" [2, 2, 2] [2, 1, 1],
   DL.Process.make "P5" [4, 3, 3] [0, 0, 2]]

/-- The Scenario B resource rows (available = total minus allocated sums). -/
def rsB : List Resource :=
  [⟨"R1", 10, 3⟩, ⟨"R2", 5, 3⟩, ⟨"R3", 7, 2⟩]

/-- Witness for C2 at the Scenario B denial: the denied request leaves the
ledger untouched. -/
theorem simulate_request_transactional_witness :
    (DL.simulate_request psB rsB "P1" [1, 0, 2]).2.1 = psB ∧
    (DL.simulate_request psB rsB "P1" [1, 0, 2]).2.2 = rsB :=
  (simulate_request_transactional psB [] rsB "P1" [1, 0, 2]).1 (by decide)

/-- C5: in the Scenario B state the request `[1,0,2]` by process 1 (pid `P1`,
the first process) passes the claim and availability checks but leaves the
tentative state unsafe, so `simulate_request` denies it with the
unsafe-state message, the ledger unchanged; the current availability is
`[3,3,2]`. -/
theorem scenarioB_request_denied :
    rsB.map (·.available_instances) = [3, 3, 2] ∧
    (DL.simulate_request psB rsB "P1" [1, 0, 2]).1 =
      ⟨false, "Request would lead to unsafe state"⟩ ∧
    (DL.simulate_request psB rsB "P1" [1, 0, 2]).2.1 = psB ∧
    (DL.simulate_request psB rsB "P1" [1, 0, 2]).2.2 = rsB := by decide

/-- C10: the duplicated implementations are extensionally equal: on every
ledger the resource-allocation copies of `bankers_algorithm` and
`simulate_request` return exactly the results of the deadlock-module
originals (through the field projection `Process.toDL`), and perform the
identical ledger mutation. -/
theorem duplicated_implementations_agree :
    ∀ (ps : List RA.Process) (rs : List Resource) (pid : String)
      (request : List Int),
      RA.bankers_algorithm ps rs =
        DL.bankers_algorithm (ps.map RA.Process.toDL) rs ∧
      (RA.simulate_request_bankers ps rs pid request).1 =
        (DL.simulate_request (ps.map RA.Process.toDL) rs pid request).1 ∧
      (RA.simulate_request_bankers ps rs pid request).2.1.map RA.Process.toDL =
        (DL.simulate_request (ps.map RA.Process.toDL) rs pid request).2.1 ∧
      (RA.simulate_request_bankers ps rs pid request).2.2 =
        (DL.simulate_request (ps.map RA.Process.toDL) rs pid request).2.2 :=
  fun ps rs pid request =>
    ⟨bankers_algorithm_toDL ps rs, simulate_request_toDL ps rs pid request⟩

/-- Stable insertion step: place `x` before the first element not strictly
below it (`lt y x = false`), keeping every strictly smaller element in
front.  Equal elements therefore keep their original relative order. -/
def insertBefore (lt : α → α → Bool) (x : α) : List α → List α
  | [] => [x]
  | y :: ys => if lt y x then y :: insertBefore lt x ys else x :: y :: ys

/-- Stable sort by the strict comparator `lt`.  Python `sorted` / `.sort()`
is a stable sort, and a stable sort by a fixed total strict order is unique,
so this structurally recursive insertion sort computes exactly what the
source computes (kernel-reducible, unlike a well-founded merge sort). -/
def stableSortBy (lt : α → α → Bool) : List α → List α
  | [] => []
  | x :: xs => insertBefore lt x (stableSortBy lt xs)

namespace RA

/-- The shared grant mutation on a single process record:
`allocated[i] += req; need[i] -= req` over the request prefix. -/
def grantProcess (p : Process) (request : List Int) : Process :=
  { p with
      allocated_resources := addPrefix p.allocated_resources request,
      need_resources := subPrefix p.need_resources request }

/-- `sorted(processes, key=lambda p: p.arrival_time)` as the stable
permutation of indices it induces (Python `sorted` is stable; the objects in
the sorted list are the same objects, so only the index order matters). -/
def sortedIndices (ps : List Process) : List Nat :=
  stableSortBy (fun i j =>
    decide ((ps.getD i default).arrival_time < (ps.getD j default).arrival_time))
    (List.range ps.length)

/-- `next((p for p in sorted_processes if p.pid == pid), None)`: the first
index, in sorted order, of a process whose pid matches. -/
def lookupSorted (sorted : List Nat) (ps : List Process) (pid : String) :
    Option Nat :=
  sorted.find? fun i => (ps.getD i default).pid == pid

/-- Apply the grant mutation to the process at index `i`. -/
def setProcess (ps : List Process) (i : Nat) (request : List Int) :
    List Process :=
  match ps.get? i with
  | none => ps
  | some p => ps.set i (grantProcess p request)

/-- `all(req <= avail for req, avail in zip(request, [availables]))`. -/
def canGrant (request : List Int) (rs : List Resource) : Bool :=
  (request.zip (rs.map (·.available_instances))).all fun pr => decide (pr.1 ≤ pr.2)

/-- The request loop of `fcfs_allocation`: requests are processed in batch
order; only the pid lookup goes through the arrival-sorted index list. -/
def fcfsLoop (sorted : List Nat) :
    List (String × List Int) → List Process → List Resource →
      List RequestResult × List Process × List Resource
  | [], ps, rs => ([], ps, rs)
  | (pid, request) :: rest, ps, rs =>
      match lookupSorted sorted ps pid with
      | none =>
          let out := fcfsLoop sorted rest ps rs
          (⟨false, "Process " ++ pid ++ " not found"⟩ :: out.1, out.2)
      | some i =>
          if canGrant request rs then
            let out := fcfsLoop sorted rest (setProcess ps i request)
              (subAvail rs request)
            (⟨true, "Request by " ++ pid ++ " granted"⟩ :: out.1, out.2)
          else
            let out := fcfsLoop sorted rest ps rs
            (⟨false, "Request by " ++ pid ++ " denied - insufficient resources"⟩
              :: out.1, out.2)

/-- `ResourceAllocationAlgorithms.fcfs_allocation(processes, resources,
requests)`. -/
def fcfs_allocation (ps : List Process) (rs : List Resource)
    (requests : List (String × List Int)) :
    List RequestResult × List Process × List Resource :=
  fcfsLoop (sortedIndices ps) requests ps rs

/-- Phase 1 of `priority_allocation`: build `(priority, pid, request)`
triples, silently dropping requests whose pid has no process. -/
def priorityRequests (ps : List Process) :
    List (String × List Int) → List (Int × String × List Int)
  | [] => []
  | (pid, request) :: rest =>
      match ps.find? (fun p => p.pid == pid) with
      | none => priorityRequests ps rest
      | some p => (p.priority, pid, request) :: priorityRequests ps rest

end RA

/-- Python `<` on integer lists (lexicographic). -/
def listLtLex : List Int → List Int → Bool
  | [], [] => false
  | [], _ :: _ => true
  | _ :: _, [] => false
  | x :: xs, y :: ys => if x < y then true else if y < x then false else listLtLex xs ys

/-- Python `<` on strings (lexicographic on code points). -/
def charListLt : List Char → List Char → Bool
  | [], [] => false
  | [], _ :: _ => true
  | _ :: _, [] => false
  | c :: cs, d :: ds => if c < d then true else if d < c then false else charListLt cs ds

/-- Python `<` on strings. -/
def strLtB (a b : String) : Bool := charListLt a.toList b.toList

/-- Python `<` on `(priority, pid, request)` tuples (lexicographic). -/
def tripleLt (a b : Int × String × List Int) : Bool :=
  if a.1 < b.1 then true
  else if b.1 < a.1 then false
  else if strLtB a.2.1 b.2.1 then true
  else if strLtB b.2.1 a.2.1 then false
  else listLtLex a.2.2 b.2.2

namespace RA

/-- `priority_requests.sort(reverse=True)`: stable descending sort by the
tuple order. -/
def prioritySorted (l : List (Int × String × List Int)) :
    List (Int × String × List Int) :=
  stableSortBy (fun a b => tripleLt b a) l

/-- Phase 2 of `priority_allocation`: serve the sorted triples; the grant
rule is the FCFS one (availability only).  The not-found branch is
unreachable from the entry point (phase 1 keeps only pids with a process and
pids never change); Python would raise there. -/
def priorityLoop :
    List (Int × String × List Int) → List Process → List Resource →
      List RequestResult × List Process × List Resource
  | [], ps, rs => ([], ps, rs)
  | (_, pid, request) :: rest, ps, rs =>
      match ps.find? (fun p => p.pid == pid) with
      | none =>
          let out := priorityLoop rest ps rs
          (⟨false, "Process " ++ pid ++ " not found"⟩ :: out.1, out.2)
      | some p =>
          if canGrant request rs then
            let out := priorityLoop rest (updateFirstGrant ps pid request)
              (subAvail rs request)
            (⟨true, "Request by " ++ pid ++ " (priority " ++ toString p.priority
                ++ ") granted"⟩ :: out.1, out.2)
          else
            let out := priorityLoop rest ps rs
            (⟨false, "Request by " ++ pid ++ " (priority " ++ toString p.priority
                ++ ") denied - insufficient resources"⟩ :: out.1, out.2)

/-- `ResourceAllocationAlgorithms.priority_allocation(processes, resources,
requests)`. -/
def priority_allocation (ps : List Process) (rs : List Resource)
    (requests : List (String × List Int)) :
    List RequestResult × List Process × List Resource :=
  priorityLoop (prioritySorted (priorityRequests ps requests)) ps rs

end RA

/-- Python `max` on a nonempty integer list (`max([])` raises; junk 0). -/
def listMax : List Int → Int
  | [] => 0
  | x :: xs => xs.foldl max x

namespace RA

/-- One iteration of the `while queue` body of `round_robin_allocation`:
pop `(pid, request)`, look the process up, and either report not-found,
grant `min(req, min(time_quantum, max(request)))` per dimension (re-queueing
the clamped remaining need unless need is now all zero), or re-queue the
request unchanged on insufficient availability. -/
def rrStep (tq : Int) (pid : String) (request : List Int)
    (queue : List (String × List Int)) (ps : List Process) (rs : List Resource) :
    List (String × List Int) × List Process × List Resource × RequestResult :=
  match ps.find? (fun p => p.pid == pid) with
  | none => (queue, ps, rs, ⟨false, "Process " ++ pid ++ " not found"⟩)
  | some p =>
      if canGrant request rs then
        let allocVec := request.map fun req => min req (min tq (listMax request))
        let p' := grantProcess p allocVec
        let ps' := updateFirstGrant ps pid allocVec
        let rs' := subAvail rs allocVec
        if p'.need_resources.all (fun n => n == 0) then
          (queue, ps', rs', ⟨true, "Request by " ++ pid ++ " completed"⟩)
        else
          (queue ++ [(pid, p'.need_resources.map (fun n => max 0 n))], ps', rs',
            ⟨true, "Request by " ++ pid ++ " partially granted, re-queued"⟩)
      else
        (queue ++ [(pid, request)], ps, rs,
          ⟨false, "Request by " ++ pid ++ " denied, re-queued"⟩)

/-- The `while queue` loop of `round_robin_allocation`, fuel-indexed.  The
Python loop has no iteration bound; `none` means the given number of steps
did not empty the queue (the Python code would still be running). -/
def rrLoop (tq : Int) :
    Nat → List (String × List Int) → List Process → List Resource →
      List RequestResult →
      Option (List RequestResult × List Process × List Resource)
  | 0, queue, ps, rs, acc =>
      if queue.isEmpty then some (acc, ps, rs) else none
  | _ + 1, [], ps, rs, acc => some (acc, ps, rs)
  | fuel + 1, (pid, request) :: rest, ps, rs, acc =>
      let st := rrStep tq pid request rest ps rs
      rrLoop tq fuel st.1 st.2.1 st.2.2.1 (acc ++ [st.2.2.2])

/-- `ResourceAllocationAlgorithms.round_robin_allocation(processes,
resources, requests, time_quantum)`, bounded by `fuel` loop iterations. -/
def round_robin_allocation (ps : List Process) (rs : List Resource)
    (requests : List (String × List Int)) (tq : Int) (fuel : Nat) :
    Option (List RequestResult × List Process × List Resource) :=
  rrLoop tq fuel requests ps rs []

end RA

/-- Result record of `fair_share_allocation`: the `allocations` dict
(insertion-ordered association list, as a Python dict) plus message. -/
structure FairShareResult where
  allocations : List (String × List Int)
  message : String
deriving Repr, DecidableEq, Inhabited

/-- `allocations[pid][i] = v`, creating `[0] * len(resources)` on first
touch, as the Python dict update does. -/
def dictSetAt (allocs : List (String × List Int)) (pid : String) (numR : Nat)
    (i : Nat) (v : Int) : List (String × List Int) :=
  if allocs.any (fun e => e.1 == pid) then
    allocs.map fun e => if e.1 == pid then (e.1, e.2.set i v) else e
  else allocs ++ [(pid, (List.replicate numR 0).set i v)]

namespace RA

/-- The inner `for j, process in enumerate(processes)` loop of
`fair_share_allocation` at resource index `i`:
`alloc = min(fair + (1 if j < rem else 0), max_resources[i])`, overwrite
`allocated[i]` and `need[i]`, and subtract `alloc` from the running
availability of resource `i`. -/
def fairShareInner (numR : Nat) (i : Nat) (fair rem : Int) :
    Nat → List Process → List (String × List Int) → Int →
      List Process × List (String × List Int) × Int
  | _, [], allocs, avail => ([], allocs, avail)
  | j, p :: rest, allocs, avail =>
      let alloc := min (fair + (if (j : Int) < rem then 1 else 0))
        (p.max_resources.getD i 0)
      let p' := { p with
          allocated_resources := p.allocated_resources.set i alloc,
          need_resources := p.need_resources.set i (p.max_resources.getD i 0 - alloc) }
      let out := fairShareInner numR i fair rem (j + 1) rest
        (dictSetAt allocs p.pid numR i alloc) (avail - alloc)
      (p' :: out.1, out.2)

/-- The outer `for i, resource in enumerate(resources)` loop:
`fair = total // num` and `rem = total % num` (Python floor division and
modulus) for each resource in turn. -/
def fairShareOuter (num : Int) (numR : Nat) :
    Nat → List Resource → List Process → List (String × List Int) →
      List Resource × List Process × List (String × List Int)
  | _, [], ps, allocs => ([], ps, allocs)
  | i, r :: rest, ps, allocs =>
      let fair := Int.fdiv r.total_instances num
      let rem := Int.fmod r.total_instances num
      let inner := fairShareInner numR i fair rem 0 ps allocs r.available_instances
      let out := fairShareOuter num numR (i + 1) rest inner.1 inner.2.1
      ({ r with available_instances := inner.2.2 } :: out.1, out.2)

/-- `ResourceAllocationAlgorithms.fair_share_allocation(processes,
resources)`. -/
def fair_share_allocation (ps : List Process) (rs : List Resource) :
    FairShareResult × List Process × List Resource :=
  if ps.isEmpty then (⟨[], "No processes"⟩, ps, rs)
  else
    let out := fairShareOuter (ps.length : Int) rs.length 0 rs ps []
    (⟨out.2.2, "Fair share allocation completed for " ++ toString ps.length
        ++ " processes"⟩, out.2.1, out.1)

/-- The release mutation on the first pid match:
`allocated[i] -= rel; need[i] += rel`. -/
def updateFirstRelease : List Process → String → List Int → List Process
  | [], _, _ => []
  | p :: rest, pid, release =>
      if p.pid == pid then
        { p with
            allocated_resources := subPrefix p.allocated_resources release,
            need_resources := addPrefix p.need_resources release } :: rest
      else p :: updateFirstRelease rest pid release

end RA

/-- Result record `{'success': ..., 'message': ...}` of
`deallocate_resources`. -/
structure ReleaseResult where
  success : Bool
  message : String
deriving Repr, DecidableEq, Inhabited

namespace RA

/-- `ResourceAllocationAlgorithms.deallocate_resources(processes, resources,
process_id, release)`. -/
def deallocate_resources (ps : List Process) (rs : List Resource)
    (process_id : String) (release : List Int) :
    ReleaseResult × List Process × List Resource :=
  match ps.find? (fun p => p.pid == process_id) with
  | none => (⟨false, "Process " ++ process_id ++ " not found"⟩, ps, rs)
  | some process =>
      if (release.zip process.allocated_resources).any
          (fun pr => decide (pr.1 > pr.2)) then
        (⟨false, "Cannot release more than allocated"⟩, ps, rs)
      else
        (⟨true, "Resources released from " ++ process_id⟩,
          updateFirstRelease ps process_id release, addAvail rs release)

end RA

/-- A starved round-robin input: the single request `[1]` can never be
granted (no instances exist), so the loop re-queues it unchanged forever. -/
def rrStarveProcs : List RA.Process := [RA.Process.make "P" [5] [0] 0 0]

/-- The resource row for the starved input: zero instances. -/
def rrStarveRes : List Resource := [⟨"R", 0, 0⟩]

/-- Counterexample to C7: the loop body maps the starved state back to
itself (the request is re-queued unchanged, ledger untouched, no Starvation
outcome — only the plain denied-re-queued record), so the `while queue` loop
never exits; in particular 50 iterations do not finish. -/
theorem round_robin_starved_step_is_fixpoint :
    RA.rrStep 1 "P" [1] [] rrStarveProcs rrStarveRes =
      ([("P", [1])], rrStarveProcs, rrStarveRes,
        ⟨false, "Request by P denied, re-queued"⟩) ∧
    RA.round_robin_allocation rrStarveProcs rrStarveRes [("P", [1])] 1 50 =
      none := by decide

/-- C7 amended: `round_robin_allocation` does not terminate on every input:
it has no iteration bound and no Starvation outcome, and on an input whose
request is perpetually ineligible the queue state repeats forever — no
number of loop iterations empties the queue. -/
theorem round_robin_starved_input_never_terminates :
    ∀ (fuel : Nat) (acc : List RequestResult),
      RA.rrLoop 1 fuel [("P", [1])] rrStarveProcs rrStarveRes acc = none := by
  intro fuel
  induction fuel with
  | zero => intro acc; rfl
  | succ fuel ih =>
      intro acc
      have hstep : RA.rrStep 1 "P" [1] [] rrStarveProcs rrStarveRes =
          ([("P", [1])], rrStarveProcs, rrStarveRes,
            ⟨false, "Request by P denied, re-queued"⟩) := by decide
      simp only [RA.rrLoop, hstep]
      exact ih _

lemma length_insertBefore (lt : α → α → Bool) (x : α) :
    ∀ l : List α, (insertBefore lt x l).length = l.length + 1 := by
  intro l
  induction l with
  | nil => rfl
  | cons y ys ih =>
      by_cases h : lt y x = true
      · simp [insertBefore, h, ih]
      · simp [insertBefore, h]

lemma length_stableSortBy (lt : α → α → Bool) :
    ∀ l : List α, (stableSortBy lt l).length = l.length := by
  intro l
  induction l with
  | nil => rfl
  | cons x xs ih => simp [stableSortBy, length_insertBefore, ih]

lemma fcfsLoop_length (sorted : List Nat) :
    ∀ (requests : List (String × List Int)) (ps : List RA.Process)
      (rs : List Resource),
      (RA.fcfsLoop sorted requests ps rs).1.length = requests.length := by
  intro requests
  induction requests with
  | nil => intro ps rs; rfl
  | cons req rest ih =>
      intro ps rs
      cases req with
      | mk pid request =>
        cases hfind : RA.lookupSorted sorted ps pid with
        | none => simp [RA.fcfsLoop, hfind, ih]
        | some i =>
            by_cases hg : RA.canGrant request rs = true
            · simp [RA.fcfsLoop, hfind, hg, ih]
            · simp [RA.fcfsLoop, hfind, hg, ih]

lemma priorityLoop_length :
    ∀ (triples : List (Int × String × List Int)) (ps : List RA.Process)
      (rs : List Resource),
      (RA.priorityLoop triples ps rs).1.length = triples.length := by
  intro triples
  induction triples with
  | nil => intro ps rs; rfl
  | cons t rest ih =>
      intro ps rs
      obtain ⟨prio, pid, request⟩ := t
      cases hfind : ps.find? (fun p => p.pid == pid) with
      | none => simp [RA.priorityLoop, hfind, ih]
      | some p =>
          by_cases hg : RA.canGrant request rs = true
          · simp [RA.priorityLoop, hfind, hg, ih]
          · simp [RA.priorityLoop, hfind, hg, ih]

lemma priorityRequests_length (ps : List RA.Process) :
    ∀ requests : List (String × List Int),
      (RA.priorityRequests ps requests).length =
        (requests.filter fun r => (ps.find? fun p => p.pid == r.1).isSome).length := by
  intro requests
  induction requests with
  | nil => rfl
  | cons req rest ih =>
      cases req with
      | mk pid request =>
        cases hfind : ps.find? (fun p => p.pid == pid) with
        | none => simp [RA.priorityRequests, hfind, ih, List.filter]
        | some p => simp [RA.priorityRequests, hfind, ih, List.filter]

/-- The terminating round-robin demo input: one request that is granted in
two passes and therefore produces two result records. -/
def rrDemoProcs : List RA.Process := [RA.Process.make "P" [2] [0] 0 0]

/-- The resource row of the round-robin demo input. -/
def rrDemoRes : List Resource := [⟨"R", 2, 2⟩]

/-- Counterexample to C8: `priority_allocation` silently drops a request
whose pid has no process, so its result list is shorter than the batch. -/
theorem priority_drops_unknown_pid_result :
    (RA.priority_allocation [] [] [("X", [1])]).1.length ≠
      [(("X" : String), [(1 : Int)])].length := by decide

/-- C8 amended: `fcfs_allocation` produces exactly one result per request;
`priority_allocation` produces exactly one result per request whose pid has
a live process (unknown-pid requests yield no result); and
`round_robin_allocation` can produce more results than requests (one per
queue pass — on the demo input one request yields two records). -/
theorem batch_result_shape :
    ∀ (ps : List RA.Process) (rs : List Resource)
      (requests : List (String × List Int)),
      (RA.fcfs_allocation ps rs requests).1.length = requests.length ∧
      (RA.priority_allocation ps rs requests).1.length =
        (requests.filter fun r => (ps.find? fun p => p.pid == r.1).isSome).length ∧
      ((RA.round_robin_allocation rrDemoProcs rrDemoRes [("P", [2])] 1 5).map
          fun out => out.1.length) = some 2 := by
  intro ps rs requests
  refine ⟨fcfsLoop_length _ requests ps rs, ?_, by decide⟩
  unfold RA.priority_allocation
  rw [priorityLoop_length, RA.prioritySorted, length_stableSortBy,
    priorityRequests_length]

namespace RA

/-- Spec-side formulation of the C6 claim: process the batch in the order
the owning processes arrived (stable sort of the requests by the owner
arrival time, ties in input order), with the same availability-only grant
rule. -/
def fcfsArrivalOrderSpec (ps : List Process) (rs : List Resource)
    (requests : List (String × List Int)) :
    List RequestResult × List Process × List Resource :=
  fcfsLoop (sortedIndices ps)
    (stableSortBy (fun a b =>
      decide ((((ps.find? fun p => p.pid == a.1).map (·.arrival_time)).getD 0) <
        (((ps.find? fun p => p.pid == b.1).map (·.arrival_time)).getD 0)))
      requests)
    ps rs

/-- Spec-side formulation of the amended C6 claim: requests are processed in
batch input order; the pid lookup is a plain first match on the live process
list. -/
def fcfsInputLoop :
    List (String × List Int) → List Process → List Resource →
      List RequestResult × List Process × List Resource
  | [], ps, rs => ([], ps, rs)
  | (pid, request) :: rest, ps, rs =>
      match ps.find? (fun p => p.pid == pid) with
      | none =>
          let out := fcfsInputLoop rest ps rs
          (⟨false, "Process " ++ pid ++ " not found"⟩ :: out.1, out.2)
      | some _ =>
          if canGrant request rs then
            let out := fcfsInputLoop rest (updateFirstGrant ps pid request)
              (subAvail rs request)
            (⟨true, "Request by " ++ pid ++ " granted"⟩ :: out.1, out.2)
          else
            let out := fcfsInputLoop rest ps rs
            (⟨false, "Request by " ++ pid ++ " denied - insufficient resources"⟩
              :: out.1, out.2)

/-- Entry point of the amended C6 spec formulation. -/
def fcfsInputOrderSpec (ps : List Process) (rs : List Resource)
    (requests : List (String × List Int)) :
    List RequestResult × List Process × List Resource :=
  fcfsInputLoop requests ps rs

end RA

/-- Scenario-C style state for C6: process `A` arrives at time 5, `B` at
time 1, one unit of each of two resources. -/
def psScenC : List RA.Process :=
  [RA.Process.make "A" [1, 1] [0, 0] 0 5,
   RA.Process.make "B" [1, 1] [0, 0] 0 1]

/-- Scenario-C resources: one instance each. -/
def rsScenC : List Resource := [⟨"R1", 1, 1⟩, ⟨"R2", 1, 1⟩]

/-- Scenario-C batch: the later-arriving `A` is first in the batch. -/
def reqsScenC : List (String × List Int) := [("A", [1, 1]), ("B", [1, 1])]

/-- Counterexample to C6: the code serves the batch in input order — the
later-arriving `A` (first in the batch) is granted and the earlier-arriving
`B` is denied — which differs from the arrival-ordered processing the claim
describes, both in the result records and in the final process state. -/
theorem fcfs_not_arrival_ordered :
    (RA.fcfs_allocation psScenC rsScenC reqsScenC).1 =
      [⟨true, "Request by A granted"⟩,
       ⟨false, "Request by B denied - insufficient resources"⟩] ∧
    (RA.fcfs_allocation psScenC rsScenC reqsScenC).1 ≠
      (RA.fcfsArrivalOrderSpec psScenC rsScenC reqsScenC).1 ∧
    (RA.fcfs_allocation psScenC rsScenC reqsScenC).2.1 ≠
      (RA.fcfsArrivalOrderSpec psScenC rsScenC reqsScenC).2.1 := by decide

lemma perm_insertBefore (lt : α → α → Bool) (x : α) :
    ∀ l : List α, (insertBefore lt x l).Perm (x :: l) := by
  intro l
  induction l with
  | nil => exact List.Perm.refl _
  | cons y ys ih =>
      by_cases h : lt y x = true
      · have heq : insertBefore lt x (y :: ys) = y :: insertBefore lt x ys := by
          simp [insertBefore, h]
        rw [heq]
        exact (ih.cons y).trans (List.Perm.swap x y ys)
      · have heq : insertBefore lt x (y :: ys) = x :: y :: ys := by
          simp [insertBefore, h]
        rw [heq]

lemma perm_stableSortBy (lt : α → α → Bool) :
    ∀ l : List α, (stableSortBy lt l).Perm l := by
  intro l
  induction l with
  | nil => exact List.Perm.refl _
  | cons x xs ih =>
      exact (perm_insertBefore lt x (stableSortBy lt xs)).trans (ih.cons x)

lemma get?_eq_some_getD (l : List α) (j : Nat) (d : α) (h : j < l.length) :
    l.get? j = some (l.getD j d) := by
  have h1 : l.get? j = some (l.get ⟨j, h⟩) := List.get?_eq_some.2 ⟨h, rfl⟩
  have h2 : l.getD j d = (l.get? j).getD d := by
    rw [List.getD_eq_getElem?_getD, List.get?_eq_getElem?]
  rw [h2, h1]
  rfl

lemma nodup_map_index_unique (f : α → β) :
    ∀ (l : List α), (l.map f).Nodup →
      ∀ i j a b, l.get? i = some a → l.get? j = some b → f a = f b → i = j := by
  intro l
  induction l with
  | nil =>
      intro _ i j a b hi
      simp at hi
  | cons x rest ih =>
      intro hnd i j a b hi hj hf
      have hmap : ((x :: rest).map f) = f x :: rest.map f := rfl
      rw [hmap] at hnd
      have hx : f x ∉ rest.map f := (List.nodup_cons.1 hnd).1
      have hnd' : (rest.map f).Nodup := (List.nodup_cons.1 hnd).2
      cases i with
      | zero =>
          cases j with
          | zero => rfl
          | succ j =>
              exfalso
              have hxa : x = a := by simpa using hi
              have hb : b ∈ rest := List.get?_mem (by simpa using hj)
              exact hx (List.mem_map.2 ⟨b, hb, by rw [hxa, ← hf]⟩)
      | succ i =>
          cases j with
          | zero =>
              exfalso
              have hxb : x = b := by simpa using hj
              have ha : a ∈ rest := List.get?_mem (by simpa using hi)
              exact hx (List.mem_map.2 ⟨a, ha, by rw [hxb]; exact hf⟩)
          | succ j =>
              have := ih hnd' i j a b (by simpa using hi) (by simpa using hj) hf
              omega

lemma find?_eq_some_of_unique (q : α → Bool) (x : α) :
    ∀ l : List α, x ∈ l → q x = true → (∀ y ∈ l, q y = true → y = x) →
      l.find? q = some x := by
  intro l
  induction l with
  | nil => intro h; simp at h
  | cons a rest ih =>
      intro hx hqx huniq
      by_cases ha : q a = true
      · have : a = x := huniq a (by simp) ha
        rw [List.find?_cons_of_pos _ ha, this]
      · have hx' : x ∈ rest := by
          rcases List.mem_cons.1 hx with h | h
          · exact absurd (h ▸ hqx) ha
          · exact h
        rw [List.find?_cons_of_neg _ (by simpa using ha)]
        exact ih hx' hqx (fun y hy hqy => huniq y (List.mem_cons_of_mem _ hy) hqy)

lemma updateFirstGrant_pids (pid : String) (v : List Int) :
    ∀ ps : List RA.Process,
      (RA.updateFirstGrant ps pid v).map (·.pid) = ps.map (·.pid) := by
  intro ps
  induction ps with
  | nil => rfl
  | cons p rest ih =>
      by_cases h : (p.pid == pid) = true
      · simp [RA.updateFirstGrant, h]
      · simp [RA.updateFirstGrant, h, ih]

lemma updateFirstGrant_length (pid : String) (v : List Int)
    (ps : List RA.Process) :
    (RA.updateFirstGrant ps pid v).length = ps.length := by
  have h := congrArg List.length (updateFirstGrant_pids pid v ps)
  simpa using h

lemma lookupSorted_correspondence (sorted : List Nat) (ps : List RA.Process)
    (pid : String) (hperm : sorted.Perm (List.range ps.length))
    (hnd : (ps.map (·.pid)).Nodup) :
    (RA.lookupSorted sorted ps pid = none ∧
      ps.find? (fun p => p.pid == pid) = none) ∨
    (∃ i p, RA.lookupSorted sorted ps pid = some i ∧ ps.get? i = some p ∧
      (p.pid == pid) = true ∧ ps.find? (fun p => p.pid == pid) = some p) := by
  cases hfind : ps.find? (fun p => p.pid == pid) with
  | none =>
      left
      refine ⟨?_, rfl⟩
      unfold RA.lookupSorted
      rw [List.find?_eq_none] at hfind ⊢
      intro i hi
      have hlt : i < ps.length := List.mem_range.1 (hperm.mem_iff.1 hi)
      have hmem : ps.getD i default ∈ ps :=
        List.get?_mem (get?_eq_some_getD ps i default hlt)
      simpa using hfind _ hmem
  | some p =>
      right
      have hp : (p.pid == pid) = true := by
        have := List.find?_some hfind
        simpa using this
      obtain ⟨n, hn⟩ := List.mem_iff_get?.1 (List.mem_of_find?_eq_some hfind)
      have hlen : n < ps.length := (List.get?_eq_some.1 hn).1
      refine ⟨n, p, ?_, hn, hp, rfl⟩
      unfold RA.lookupSorted
      apply find?_eq_some_of_unique _ n sorted
        (hperm.mem_iff.2 (List.mem_range.2 hlen))
      · have : ps.getD n default = p := by
          have h2 := get?_eq_some_getD ps n default hlen
          rw [hn] at h2
          exact (Option.some_inj.1 h2).symm
        rw [this]
        exact hp
      · intro j hj hqj
        have hjlt : j < ps.length := List.mem_range.1 (hperm.mem_iff.1 hj)
        have hgj := get?_eq_some_getD ps j default hjlt
        have hpidj : (ps.getD j default).pid = p.pid := by
          have h1 : (ps.getD j default).pid = pid := by
            simpa using hqj
          have h2 : p.pid = pid := by simpa using hp
          rw [h1, h2]
        exact nodup_map_index_unique (·.pid) ps hnd j n _ _ hgj hn hpidj

lemma setProcess_eq_updateFirstGrant (pid : String) (v : List Int) :
    ∀ (ps : List RA.Process) (i : Nat) (p : RA.Process),
      (ps.map (·.pid)).Nodup → ps.get? i = some p → (p.pid == pid) = true →
      RA.setProcess ps i v = RA.updateFirstGrant ps pid v := by
  intro ps
  induction ps with
  | nil =>
      intro i p _ hget
      simp at hget
  | cons q rest ih =>
      intro i p hnd hget hp
      have hmap : ((q :: rest).map (·.pid)) = q.pid :: rest.map (·.pid) := rfl
      rw [hmap] at hnd
      have hqn : q.pid ∉ rest.map (·.pid) := (List.nodup_cons.1 hnd).1
      have hnd' : (rest.map (·.pid)).Nodup := (List.nodup_cons.1 hnd).2
      cases i with
      | zero =>
          have hq : q = p := by simpa using hget
          subst hq
          simp [RA.setProcess, RA.updateFirstGrant, hp, RA.grantProcess, List.set]
      | succ i =>
          have hget' : rest.get? i = some p := by simpa using hget
          have hgetE : rest[i]? = some p := by
            rw [← List.get?_eq_getElem?]
            exact hget'
          have hgetE2 : (q :: rest)[i + 1]? = some p := by simpa using hgetE
          have hqpid : (q.pid == pid) = false := by
            by_contra hq
            have hq' : (q.pid == pid) = true := by
              cases hqq : (q.pid == pid) with
              | true => rfl
              | false => exact absurd hqq hq
            apply hqn
            refine List.mem_map.2 ⟨p, List.get?_mem hget', ?_⟩
            have e1 : p.pid = pid := by simpa using hp
            have e2 : q.pid = pid := by simpa using hq'
            rw [e1, e2]
          have hrest := ih i p hnd' hget' hp
          have hsetr : RA.setProcess rest i v = rest.set i (RA.grantProcess p v) := by
            simp [RA.setProcess, hgetE]
          have hsetl : RA.setProcess (q :: rest) (i + 1) v =
              q :: rest.set i (RA.grantProcess p v) := by
            simp [RA.setProcess, hgetE2, List.set_cons_succ]
          have hupd : RA.updateFirstGrant (q :: rest) pid v =
              q :: RA.updateFirstGrant rest pid v := by
            simp [RA.updateFirstGrant, hqpid]
          rw [hsetl, hupd, ← hrest, hsetr]

lemma fcfsLoop_eq_inputLoop :
    ∀ (requests : List (String × List Int)) (sorted : List Nat)
      (ps : List RA.Process) (rs : List Resource),
      sorted.Perm (List.range ps.length) → (ps.map (·.pid)).Nodup →
      RA.fcfsLoop sorted requests ps rs = RA.fcfsInputLoop requests ps rs := by
  intro requests
  induction requests with
  | nil => intro sorted ps rs _ _; rfl
  | cons req rest ih =>
      intro sorted ps rs hperm hnd
      obtain ⟨pid, request⟩ := req
      rcases lookupSorted_correspondence sorted ps pid hperm hnd with
        ⟨hl, hf⟩ | ⟨i, p, hl, hget, hp, hf⟩
      · simp only [RA.fcfsLoop, RA.fcfsInputLoop, hl, hf]
        rw [ih sorted ps rs hperm hnd]
      · by_cases hg : RA.canGrant request rs = true
        · have hset := setProcess_eq_updateFirstGrant pid request ps i p hnd hget hp
          have hnd' : ((RA.updateFirstGrant ps pid request).map (·.pid)).Nodup := by
            rw [updateFirstGrant_pids]
            exact hnd
          have hperm' : sorted.Perm
              (List.range (RA.updateFirstGrant ps pid request).length) := by
            rw [updateFirstGrant_length]
            exact hperm
          simp only [RA.fcfsLoop, RA.fcfsInputLoop, hl, hf, hg, if_pos, hset]
          rw [ih sorted _ _ hperm' hnd']
        · simp only [RA.fcfsLoop, RA.fcfsInputLoop, hl, hf, hg, if_neg,
            Bool.false_eq_true]
          rw [ih sorted ps rs hperm hnd]
          simp

/-- C6 amended: `fcfs_allocation` serves the batch in input order (the
arrival-time sort only routes the pid lookup, which, for distinct pids,
selects the same process): it equals the input-order first-match
formulation. -/
theorem fcfs_processes_batch_order (ps : List RA.Process) (rs : List Resource)
    (requests : List (String × List Int))
    (hnd : (ps.map (·.pid)).Nodup) :
    RA.fcfs_allocation ps rs requests = RA.fcfsInputOrderSpec ps rs requests := by
  unfold RA.fcfs_allocation RA.fcfsInputOrderSpec
  exact fcfsLoop_eq_inputLoop requests (RA.sortedIndices ps) ps rs
    (perm_stableSortBy _ _) hnd

/-- Witness for the amended C6 theorem on the Scenario-C state. -/
theorem fcfs_processes_batch_order_witness :
    RA.fcfs_allocation psScenC rsScenC reqsScenC =
      RA.fcfsInputOrderSpec psScenC rsScenC reqsScenC :=
  fcfs_processes_batch_order psScenC rsScenC reqsScenC (by decide)

/-- Executable form of the need-non-negativity invariant
`allocated[i] ≤ max_demand[i]` (componentwise over the stored vectors). -/
def needInvB (ps : List RA.Process) : Bool :=
  ps.all fun p =>
    (p.allocated_resources.zip p.max_resources).all fun pr => decide (pr.1 ≤ pr.2)

/-- The need-non-negativity invariant over the first `R` vector slots. -/
def NeedInv (R : Nat) (ps : List RA.Process) : Prop :=
  ∀ p ∈ ps, ∀ i < R, p.allocated_resources.getD i 0 ≤ p.max_resources.getD i 0

/-- The stored `need` vector agrees with `max - allocated` (the `__init__`
relationship, maintained by every mutation in the source). -/
def SyncInv (R : Nat) (ps : List RA.Process) : Prop :=
  ∀ p ∈ ps, ∀ i < R,
    p.need_resources.getD i 0 =
      p.max_resources.getD i 0 - p.allocated_resources.getD i 0

/-- Uniform shape: every per-process vector has length `R`. -/
def ProcWF (R : Nat) (ps : List RA.Process) : Prop :=
  ∀ p ∈ ps, p.allocated_resources.length = R ∧
    p.need_resources.length = R ∧ p.max_resources.length = R

/-- Uniform shape of a request batch. -/
def ReqWF (R : Nat) (requests : List (String × List Int)) : Prop :=
  ∀ r ∈ requests, r.2.length = R

lemma addPrefix_length : ∀ (xs v : List Int), v.length ≤ xs.length →
    (addPrefix xs v).length = xs.length := by
  intro xs
  induction xs with
  | nil =>
      intro v hv
      cases v with
      | nil => rfl
      | cons a v => simp at hv
  | cons x xs ih =>
      intro v hv
      cases v with
      | nil => rfl
      | cons a v =>
          have := ih v (by simpa using hv)
          simp [addPrefix, this]

lemma subPrefix_length : ∀ (xs v : List Int), v.length ≤ xs.length →
    (subPrefix xs v).length = xs.length := by
  intro xs
  induction xs with
  | nil =>
      intro v hv
      cases v with
      | nil => rfl
      | cons a v => simp at hv
  | cons x xs ih =>
      intro v hv
      cases v with
      | nil => rfl
      | cons a v =>
          have := ih v (by simpa using hv)
          simp [subPrefix, this]

lemma addPrefix_getD : ∀ (xs v : List Int), v.length ≤ xs.length → ∀ k,
    (addPrefix xs v).getD k 0 = xs.getD k 0 + v.getD k 0 := by
  intro xs
  induction xs with
  | nil =>
      intro v hv k
      cases v with
      | nil => simp [addPrefix]
      | cons a v => simp at hv
  | cons x xs ih =>
      intro v hv k
      cases v with
      | nil => simp [addPrefix]
      | cons a v =>
          cases k with
          | zero => simp [addPrefix]
          | succ k =>
              have hrec := ih v (by simpa using hv) k
              rw [show addPrefix (x :: xs) (a :: v) = (x + a) :: addPrefix xs v
                  from rfl,
                List.getD_cons_succ, List.getD_cons_succ, List.getD_cons_succ,
                hrec]

lemma subPrefix_getD : ∀ (xs v : List Int), v.length ≤ xs.length → ∀ k,
    (subPrefix xs v).getD k 0 = xs.getD k 0 - v.getD k 0 := by
  intro xs
  induction xs with
  | nil =>
      intro v hv k
      cases v with
      | nil => simp [subPrefix]
      | cons a v => simp at hv
  | cons x xs ih =>
      intro v hv k
      cases v with
      | nil => simp [subPrefix]
      | cons a v =>
          cases k with
          | zero => simp [subPrefix]
          | succ k =>
              have hrec := ih v (by simpa using hv) k
              rw [show subPrefix (x :: xs) (a :: v) = (x - a) :: subPrefix xs v
                  from rfl,
                List.getD_cons_succ, List.getD_cons_succ, List.getD_cons_succ,
                hrec]

lemma zip_all_le_getD : ∀ (v w : List Int),
    ((v.zip w).all fun pr => decide (pr.1 ≤ pr.2)) = true →
    ∀ k < v.length, k < w.length → v.getD k 0 ≤ w.getD k 0 := by
  intro v
  induction v with
  | nil => intro w _ k hk; simp at hk
  | cons a v ih =>
      intro w hall k hk hkw
      cases w with
      | nil => simp at hkw
      | cons b w =>
          rw [List.zip_cons_cons, List.all_cons, Bool.and_eq_true] at hall
          have h1 : a ≤ b := by simpa using hall.1
          cases k with
          | zero => simpa using h1
          | succ k =>
              have := ih w hall.2 k (by simpa using hk) (by simpa using hkw)
              simpa using this

lemma grantProcess_preserves (R : Nat) (p : RA.Process) (request : List Int)
    (hWa : p.allocated_resources.length = R)
    (hWn : p.need_resources.length = R)
    (hWm : p.max_resources.length = R)
    (hreq : request.length = R)
    (hneed : ∀ i < R, p.allocated_resources.getD i 0 ≤ p.max_resources.getD i 0)
    (hsync : ∀ i < R, p.need_resources.getD i 0 =
      p.max_resources.getD i 0 - p.allocated_resources.getD i 0)
    (hle : ((request.zip p.need_resources).all fun pr => decide (pr.1 ≤ pr.2)) = true) :
    (RA.grantProcess p request).allocated_resources.length = R ∧
    (RA.grantProcess p request).need_resources.length = R ∧
    (RA.grantProcess p request).max_resources.length = R ∧
    (∀ i < R, (RA.grantProcess p request).allocated_resources.getD i 0 ≤
      (RA.grantProcess p request).max_resources.getD i 0) ∧
    (∀ i < R, (RA.grantProcess p request).need_resources.getD i 0 =
      (RA.grantProcess p request).max_resources.getD i 0 -
        (RA.grantProcess p request).allocated_resources.getD i 0) := by
  have hra : request.length ≤ p.allocated_resources.length := by omega
  have hrn : request.length ≤ p.need_resources.length := by omega
  refine ⟨?_, ?_, ?_, ?_, ?_⟩
  · simp only [RA.grantProcess]
    rw [addPrefix_length _ _ hra, hWa]
  · simp only [RA.grantProcess]
    rw [subPrefix_length _ _ hrn, hWn]
  · simp only [RA.grantProcess]
    exact hWm
  · intro i hi
    have hadd := addPrefix_getD p.allocated_resources request hra i
    have hle' : request.getD i 0 ≤ p.need_resources.getD i 0 := by
      by_cases hir : i < request.length
      · exact zip_all_le_getD request p.need_resources hle i hir (by omega)
      · have h0 : request.getD i 0 = 0 := by
          apply List.getD_eq_default
          omega
        rw [h0, hsync i hi]
        have := hneed i hi
        omega
    have := hsync i hi
    have := hneed i hi
    simp only [RA.grantProcess] at *
    rw [hadd]
    omega
  · intro i hi
    have hadd := addPrefix_getD p.allocated_resources request hra i
    have hsub := subPrefix_getD p.need_resources request hrn i
    have := hsync i hi
    simp only [RA.grantProcess] at *
    rw [hadd, hsub, this]
    ring

namespace RA

/-- Replay checker for `fcfs_allocation`: `true` iff every granted request
lies within the owning process need at the moment it is processed (the
condition the policy itself never checks). -/
def fcfsNeedChecked (sorted : List Nat) :
    List (String × List Int) → List Process → List Resource → Bool
  | [], _, _ => true
  | (pid, request) :: rest, ps, rs =>
      match lookupSorted sorted ps pid with
      | none => fcfsNeedChecked sorted rest ps rs
      | some i =>
          if canGrant request rs then
            ((request.zip (ps.getD i default).need_resources).all
              fun pr => decide (pr.1 ≤ pr.2)) &&
            fcfsNeedChecked sorted rest (setProcess ps i request)
              (subAvail rs request)
          else fcfsNeedChecked sorted rest ps rs

/-- Replay checker for `priority_allocation`, over the sorted triples. -/
def priorityNeedChecked :
    List (Int × String × List Int) → List Process → List Resource → Bool
  | [], _, _ => true
  | (_, pid, request) :: rest, ps, rs =>
      match ps.find? (fun p => p.pid == pid) with
      | none => priorityNeedChecked rest ps rs
      | some p =>
          if canGrant request rs then
            ((request.zip p.need_resources).all fun pr => decide (pr.1 ≤ pr.2)) &&
            priorityNeedChecked rest (updateFirstGrant ps pid request)
              (subAvail rs request)
          else priorityNeedChecked rest ps rs

end RA

lemma mem_setProcess (ps : List RA.Process) (i : Nat) (v : List Int)
    (a : RA.Process) :
    a ∈ RA.setProcess ps i v →
      a ∈ ps ∨ ∃ p, ps.get? i = some p ∧ a = RA.grantProcess p v := by
  unfold RA.setProcess
  cases hget : ps.get? i with
  | none =>
      intro h
      exact Or.inl h
  | some p =>
      intro h
      rcases List.mem_or_eq_of_mem_set (show a ∈ ps.set i (RA.grantProcess p v)
          from h) with h' | h'
      · exact Or.inl h'
      · exact Or.inr ⟨p, rfl, h'⟩

lemma mem_updateFirstGrant (pid : String) (v : List Int) :
    ∀ (ps : List RA.Process) (a : RA.Process),
      a ∈ RA.updateFirstGrant ps pid v →
      a ∈ ps ∨ ∃ p, ps.find? (fun q => q.pid == pid) = some p ∧
        a = RA.grantProcess p v := by
  intro ps
  induction ps with
  | nil => intro a h; exact Or.inl h
  | cons q rest ih =>
      intro a h
      by_cases hq : (q.pid == pid) = true
      · rw [show RA.updateFirstGrant (q :: rest) pid v =
            RA.grantProcess q v :: rest from by
          simp [RA.updateFirstGrant, hq, RA.grantProcess]] at h
        rcases List.mem_cons.1 h with h' | h'
        · exact Or.inr ⟨q, List.find?_cons_of_pos _ hq, h'⟩
        · exact Or.inl (List.mem_cons_of_mem _ h')
      · rw [show RA.updateFirstGrant (q :: rest) pid v =
            q :: RA.updateFirstGrant rest pid v from by
          simp [RA.updateFirstGrant, hq]] at h
        rcases List.mem_cons.1 h with h' | h'
        · exact Or.inl (List.mem_cons.2 (Or.inl h'))
        · rcases ih a h' with h'' | ⟨p, hp, ha⟩
          · exact Or.inl (List.mem_cons_of_mem _ h'')
          · refine Or.inr ⟨p, ?_, ha⟩
            rw [List.find?_cons_of_neg _ (by simpa using hq)]
            exact hp

lemma getD_of_get? (ps : List RA.Process) (i : Nat) (p : RA.Process)
    (hget : ps.get? i = some p) : ps.getD i default = p := by
  have hlt : i < ps.length := (List.get?_eq_some.1 hget).1
  have h2 := get?_eq_some_getD ps i default hlt
  rw [hget] at h2
  exact (Option.some_inj.1 h2).symm

lemma fcfsLoop_preserves_invs (R : Nat) :
    ∀ (requests : List (String × List Int)) (sorted : List Nat)
      (ps : List RA.Process) (rs : List Resource),
      ProcWF R ps → ReqWF R requests → NeedInv R ps → SyncInv R ps →
      RA.fcfsNeedChecked sorted requests ps rs = true →
      NeedInv R (RA.fcfsLoop sorted requests ps rs).2.1 := by
  intro requests
  induction requests with
  | nil =>
      intro sorted ps rs _ _ hneed _ _
      simpa [RA.fcfsLoop] using hneed
  | cons req rest ih =>
      intro sorted ps rs hwf hreq hneed hsync hchk
      obtain ⟨pid, request⟩ := req
      have hreqh : request.length = R := hreq (pid, request) (by simp)
      have hreq' : ReqWF R rest := fun r hr => hreq r (List.mem_cons_of_mem _ hr)
      cases hl : RA.lookupSorted sorted ps pid with
      | none =>
          have hchk' : RA.fcfsNeedChecked sorted rest ps rs = true := by
            have h := hchk
            rw [show RA.fcfsNeedChecked sorted ((pid, request) :: rest) ps rs =
                RA.fcfsNeedChecked sorted rest ps rs from by
              simp [RA.fcfsNeedChecked, hl]] at h
            exact h
          simpa [RA.fcfsLoop, hl] using
            ih sorted ps rs hwf hreq' hneed hsync hchk'
      | some i =>
          by_cases hg : RA.canGrant request rs = true
          · have hchk2 : ((request.zip (ps.getD i default).need_resources).all
                  fun pr => decide (pr.1 ≤ pr.2)) = true ∧
                RA.fcfsNeedChecked sorted rest (RA.setProcess ps i request)
                  (subAvail rs request) = true := by
              have h := hchk
              rw [show RA.fcfsNeedChecked sorted ((pid, request) :: rest) ps rs =
                  (((request.zip (ps.getD i default).need_resources).all
                    fun pr => decide (pr.1 ≤ pr.2)) &&
                  RA.fcfsNeedChecked sorted rest (RA.setProcess ps i request)
                    (subAvail rs request)) from by
                simp [RA.fcfsNeedChecked, hl, hg]] at h
              rw [Bool.and_eq_true] at h
              exact h
            cases hget : ps.get? i with
            | none =>
                have hsp : RA.setProcess ps i request = ps := by
                  unfold RA.setProcess
                  rw [hget]
                rw [hsp] at hchk2
                have hrest := ih sorted ps (subAvail rs request) hwf hreq'
                  hneed hsync hchk2.2
                simpa [RA.fcfsLoop, hl, hg, hsp] using hrest
            | some p =>
                have hpmem : p ∈ ps := List.get?_mem hget
                have hpd : ps.getD i default = p := getD_of_get? ps i p hget
                obtain ⟨hWa, hWn, hWm⟩ := hwf p hpmem
                have hle : ((request.zip p.need_resources).all
                    fun pr => decide (pr.1 ≤ pr.2)) = true := by
                  have h := hchk2.1
                  rw [hpd] at h
                  exact h
                have hgp := grantProcess_preserves R p request hWa hWn hWm hreqh
                  (hneed p hpmem) (hsync p hpmem) hle
                have hwf' : ProcWF R (RA.setProcess ps i request) := by
                  intro a ha
                  rcases mem_setProcess ps i request a ha with ha' | ⟨p', hp', ha'⟩
                  · exact hwf a ha'
                  · rw [hget] at hp'
                    rw [ha', ← Option.some_inj.1 hp']
                    exact ⟨hgp.1, hgp.2.1, hgp.2.2.1⟩
                have hneed' : NeedInv R (RA.setProcess ps i request) := by
                  intro a ha
                  rcases mem_setProcess ps i request a ha with ha' | ⟨p', hp', ha'⟩
                  · exact hneed a ha'
                  · rw [hget] at hp'
                    rw [ha', ← Option.some_inj.1 hp']
                    exact hgp.2.2.2.1
                have hsync' : SyncInv R (RA.setProcess ps i request) := by
                  intro a ha
                  rcases mem_setProcess ps i request a ha with ha' | ⟨p', hp', ha'⟩
                  · exact hsync a ha'
                  · rw [hget] at hp'
                    rw [ha', ← Option.some_inj.1 hp']
                    exact hgp.2.2.2.2
                have hrest := ih sorted (RA.setProcess ps i request)
                  (subAvail rs request) hwf' hreq' hneed' hsync' hchk2.2
                simpa [RA.fcfsLoop, hl, hg] using hrest
          · have hchk' : RA.fcfsNeedChecked sorted rest ps rs = true := by
              have h := hchk
              rw [show RA.fcfsNeedChecked sorted ((pid, request) :: rest) ps rs =
                  RA.fcfsNeedChecked sorted rest ps rs from by
                simp [RA.fcfsNeedChecked, hl, hg]] at h
              exact h
            simpa [RA.fcfsLoop, hl, hg] using
              ih sorted ps rs hwf hreq' hneed hsync hchk'

lemma priorityLoop_preserves_invs (R : Nat) :
    ∀ (triples : List (Int × String × List Int)) (ps : List RA.Process)
      (rs : List Resource),
      ProcWF R ps → (∀ t ∈ triples, t.2.2.length = R) →
      NeedInv R ps → SyncInv R ps →
      RA.priorityNeedChecked triples ps rs = true →
      NeedInv R (RA.priorityLoop triples ps rs).2.1 := by
  intro triples
  induction triples with
  | nil =>
      intro ps rs _ _ hneed _ _
      simpa [RA.priorityLoop] using hneed
  | cons t rest ih =>
      intro ps rs hwf htw hneed hsync hchk
      obtain ⟨prio, pid, request⟩ := t
      have hreqh : request.length = R := htw (prio, pid, request) (by simp)
      have htw' : ∀ t ∈ rest, t.2.2.length = R :=
        fun t ht => htw t (List.mem_cons_of_mem _ ht)
      cases hl : ps.find? (fun p => p.pid == pid) with
      | none =>
          have hchk' : RA.priorityNeedChecked rest ps rs = true := by
            have h := hchk
            rw [show RA.priorityNeedChecked ((prio, pid, request) :: rest) ps rs =
                RA.priorityNeedChecked rest ps rs from by
              simp [RA.priorityNeedChecked, hl]] at h
            exact h
          simpa [RA.priorityLoop, hl] using
            ih ps rs hwf htw' hneed hsync hchk'
      | some p =>
          by_cases hg : RA.canGrant request rs = true
          · have hchk2 : ((request.zip p.need_resources).all
                  fun pr => decide (pr.1 ≤ pr.2)) = true ∧
                RA.priorityNeedChecked rest (RA.updateFirstGrant ps pid request)
                  (subAvail rs request) = true := by
              have h := hchk
              rw [show RA.priorityNeedChecked ((prio, pid, request) :: rest) ps rs =
                  (((request.zip p.need_resources).all
                    fun pr => decide (pr.1 ≤ pr.2)) &&
                  RA.priorityNeedChecked rest (RA.updateFirstGrant ps pid request)
                    (subAvail rs request)) from by
                simp [RA.priorityNeedChecked, hl, hg]] at h
              rw [Bool.and_eq_true] at h
              exact h
            have hpmem : p ∈ ps := List.mem_of_find?_eq_some hl
            obtain ⟨hWa, hWn, hWm⟩ := hwf p hpmem
            have hgp := grantProcess_preserves R p request hWa hWn hWm hreqh
              (hneed p hpmem) (hsync p hpmem) hchk2.1
            have hwf' : ProcWF R (RA.updateFirstGrant ps pid request) := by
              intro a ha
              rcases mem_updateFirstGrant pid request ps a ha with
                ha' | ⟨p', hp', ha'⟩
              · exact hwf a ha'
              · rw [hl] at hp'
                rw [ha', ← Option.some_inj.1 hp']
                exact ⟨hgp.1, hgp.2.1, hgp.2.2.1⟩
            have hneed' : NeedInv R (RA.updateFirstGrant ps pid request) := by
              intro a ha
              rcases mem_updateFirstGrant pid request ps a ha with
                ha' | ⟨p', hp', ha'⟩
              · exact hneed a ha'
              · rw [hl] at hp'
                rw [ha', ← Option.some_inj.1 hp']
                exact hgp.2.2.2.1
            have hsync' : SyncInv R (RA.updateFirstGrant ps pid request) := by
              intro a ha
              rcases mem_updateFirstGrant pid request ps a ha with
                ha' | ⟨p', hp', ha'⟩
              · exact hsync a ha'
              · rw [hl] at hp'
                rw [ha', ← Option.some_inj.1 hp']
                exact hgp.2.2.2.2
            have hrest := ih (RA.updateFirstGrant ps pid request)
              (subAvail rs request) hwf' htw' hneed' hsync' hchk2.2
            simpa [RA.priorityLoop, hl, hg] using hrest
          · have hchk' : RA.priorityNeedChecked rest ps rs = true := by
              have h := hchk
              rw [show RA.priorityNeedChecked ((prio, pid, request) :: rest) ps rs =
                  RA.priorityNeedChecked rest ps rs from by
                simp [RA.priorityNeedChecked, hl, hg]] at h
              exact h
            simpa [RA.priorityLoop, hl, hg] using
              ih ps rs hwf htw' hneed hsync hchk'

lemma mem_priorityRequests (ps : List RA.Process) :
    ∀ (requests : List (String × List Int)) (t : Int × String × List Int),
      t ∈ RA.priorityRequests ps requests → (t.2.1, t.2.2) ∈ requests := by
  intro requests
  induction requests with
  | nil => intro t ht; simp [RA.priorityRequests] at ht
  | cons req rest ih =>
      intro t ht
      obtain ⟨pid, request⟩ := req
      cases hl : ps.find? (fun p => p.pid == pid) with
      | none =>
          rw [show RA.priorityRequests ps ((pid, request) :: rest) =
              RA.priorityRequests ps rest from by
            simp [RA.priorityRequests, hl]] at ht
          exact List.mem_cons_of_mem _ (ih t ht)
      | some p =>
          rw [show RA.priorityRequests ps ((pid, request) :: rest) =
              (p.priority, pid, request) :: RA.priorityRequests ps rest from by
            simp [RA.priorityRequests, hl]] at ht
          rcases List.mem_cons.1 ht with h | h
          · rw [h]
            exact List.mem_cons_self _ _
          · exact List.mem_cons_of_mem _ (ih t h)

/-- The single-process state used to exhibit the C4 violation. -/
def psNeedCx : List RA.Process := [RA.Process.make "A" [1] [0] 0 0]

/-- Its resource row: five instances available, so availability never blocks. -/
def rsNeedCx : List Resource := [⟨"R", 5, 5⟩]

/-- Counterexample to C4: `fcfs_allocation` and `priority_allocation` grant a
request exceeding the process maximum claim (they only check availability),
driving `allocated` above `max_demand` — the invariant holds before the call
and is violated after it. -/
theorem fcfs_priority_can_exceed_max_claim :
    needInvB psNeedCx = true ∧
    needInvB (RA.fcfs_allocation psNeedCx rsNeedCx [("A", [3])]).2.1 = false ∧
    needInvB (RA.priority_allocation psNeedCx rsNeedCx [("A", [3])]).2.1 = false := by
  decide

/-- C4 amended: the policies preserve `allocated[i] ≤ max_demand[i]` only
under the side condition they themselves never check — that every granted
request lies within the owning process need at the moment it is processed
(verified by the replay checkers); the counterexample shows the invariant is
otherwise violated. -/
theorem fcfs_priority_preserve_max_claim_when_within_need
    (R : Nat) (ps : List RA.Process) (rs : List Resource)
    (requests : List (String × List Int))
    (hwf : ProcWF R ps) (hreq : ReqWF R requests)
    (hneed : NeedInv R ps) (hsync : SyncInv R ps) :
    (RA.fcfsNeedChecked (RA.sortedIndices ps) requests ps rs = true →
      NeedInv R (RA.fcfs_allocation ps rs requests).2.1) ∧
    (RA.priorityNeedChecked
        (RA.prioritySorted (RA.priorityRequests ps requests)) ps rs = true →
      NeedInv R (RA.priority_allocation ps rs requests).2.1) := by
  constructor
  · intro hchk
    exact fcfsLoop_preserves_invs R requests (RA.sortedIndices ps) ps rs
      hwf hreq hneed hsync hchk
  · intro hchk
    have htw : ∀ t ∈ RA.prioritySorted (RA.priorityRequests ps requests),
        t.2.2.length = R := by
      intro t ht
      have ht' : t ∈ RA.priorityRequests ps requests :=
        (perm_stableSortBy _ _).mem_iff.1 ht
      have := mem_priorityRequests ps requests t ht'
      exact hreq _ this
    exact priorityLoop_preserves_invs R _ ps rs hwf htw hneed hsync hchk

/-- Witness for the amended C4 theorem: a request within need preserves the
invariant under both policies. -/
theorem fcfs_priority_preserve_max_claim_witness :
    NeedInv 1 (RA.fcfs_allocation
      [RA.Process.make "A" [2] [0] 0 0] [⟨"R", 5, 5⟩] [("A", [1])]).2.1 ∧
    NeedInv 1 (RA.priority_allocation
      [RA.Process.make "A" [2] [0] 0 0] [⟨"R", 5, 5⟩] [("A", [1])]).2.1 := by
  have h := fcfs_priority_preserve_max_claim_when_within_need 1
    [RA.Process.make "A" [2] [0] 0 0] [⟨"R", 5, 5⟩] [("A", [1])]
    (by unfold ProcWF; decide) (by unfold ReqWF; decide)
    (by unfold NeedInv; decide) (by unfold SyncInv; decide)
  exact ⟨h.1 (by decide), h.2 (by decide)⟩

/-- Total allocation of resource slot `i` over all processes. -/
def sumAlloc (ps : List RA.Process) (i : Nat) : Int :=
  (ps.map fun p => p.allocated_resources.getD i 0).sum

/-- The conservation invariant of the spec, §3:
`available[i] + Σ allocated[i] = total_instances[i]` for every resource. -/
def Conservation (ps : List RA.Process) (rs : List Resource) : Prop :=
  ∀ i < rs.length,
    (rs.getD i default).available_instances + sumAlloc ps i =
      (rs.getD i default).total_instances

/-- Executable form of the conservation invariant. -/
def conservationB (ps : List RA.Process) (rs : List Resource) : Bool :=
  (List.range rs.length).all fun i =>
    decide ((rs.getD i default).available_instances + sumAlloc ps i =
      (rs.getD i default).total_instances)

lemma subAvail_length : ∀ (rs : List Resource) (v : List Int),
    v.length ≤ rs.length → (subAvail rs v).length = rs.length := by
  intro rs
  induction rs with
  | nil =>
      intro v hv
      cases v with
      | nil => rfl
      | cons a v => simp at hv
  | cons r rs ih =>
      intro v hv
      cases v with
      | nil => rfl
      | cons a v => simp [subAvail, ih v (by simpa using hv)]

lemma subAvail_getD : ∀ (rs : List Resource) (v : List Int),
    v.length ≤ rs.length → ∀ k < rs.length,
    ((subAvail rs v).getD k default).total_instances =
      ((rs.getD k default)).total_instances ∧
    ((subAvail rs v).getD k default).available_instances =
      (rs.getD k default).available_instances - v.getD k 0 := by
  intro rs
  induction rs with
  | nil => intro v hv k hk; simp at hk
  | cons r rs ih =>
      intro v hv k hk
      cases v with
      | nil =>
          constructor
          · rfl
          · simp [subAvail]
      | cons a v =>
          cases k with
          | zero => simp [subAvail]
          | succ k =>
              have := ih v (by simpa using hv) k (by simpa using hk)
              rw [show subAvail (r :: rs) (a :: v) =
                  { r with available_instances := r.available_instances - a } ::
                    subAvail rs v from rfl,
                List.getD_cons_succ, List.getD_cons_succ]
              exact this

lemma addAvail_length : ∀ (rs : List Resource) (v : List Int),
    v.length ≤ rs.length → (addAvail rs v).length = rs.length := by
  intro rs
  induction rs with
  | nil =>
      intro v hv
      cases v with
      | nil => rfl
      | cons a v => simp at hv
  | cons r rs ih =>
      intro v hv
      cases v with
      | nil => rfl
      | cons a v => simp [addAvail, ih v (by simpa using hv)]

lemma addAvail_getD : ∀ (rs : List Resource) (v : List Int),
    v.length ≤ rs.length → ∀ k < rs.length,
    ((addAvail rs v).getD k default).total_instances =
      ((rs.getD k default)).total_instances ∧
    ((addAvail rs v).getD k default).available_instances =
      (rs.getD k default).available_instances + v.getD k 0 := by
  intro rs
  induction rs with
  | nil => intro v hv k hk; simp at hk
  | cons r rs ih =>
      intro v hv k hk
      cases v with
      | nil =>
          constructor
          · rfl
          · simp [addAvail]
      | cons a v =>
          cases k with
          | zero => simp [addAvail]
          | succ k =>
              have := ih v (by simpa using hv) k (by simpa using hk)
              rw [show addAvail (r :: rs) (a :: v) =
                  { r with available_instances := r.available_instances + a } ::
                    addAvail rs v from rfl,
                List.getD_cons_succ, List.getD_cons_succ]
              exact this

lemma sumAlloc_set : ∀ (ps : List RA.Process) (i : Nat) (p p' : RA.Process),
    ps.get? i = some p → ∀ k,
    sumAlloc (ps.set i p') k =
      sumAlloc ps k - p.allocated_resources.getD k 0 +
        p'.allocated_resources.getD k 0 := by
  intro ps
  induction ps with
  | nil => intro i p p' hget; simp at hget
  | cons q rest ih =>
      intro i p p' hget k
      cases i with
      | zero =>
          have hq : q = p := by simpa using hget
          subst hq
          simp [List.set, sumAlloc, List.map_cons]
          ring
      | succ i =>
          have hget' : rest.get? i = some p := by simpa using hget
          have := ih i p p' hget' k
          simp only [List.set_cons_succ, sumAlloc, List.map_cons, List.sum_cons]
            at this ⊢
          omega

lemma grantProcess_alloc_getD (p : RA.Process) (v : List Int)
    (hlen : v.length ≤ p.allocated_resources.length) (k : Nat) :
    (RA.grantProcess p v).allocated_resources.getD k 0 =
      p.allocated_resources.getD k 0 + v.getD k 0 := by
  simp only [RA.grantProcess]
  exact addPrefix_getD _ v hlen k

lemma sumAlloc_setProcess (ps : List RA.Process) (i : Nat) (v : List Int)
    (p : RA.Process) (hget : ps.get? i = some p)
    (hlen : v.length ≤ p.allocated_resources.length) (k : Nat) :
    sumAlloc (RA.setProcess ps i v) k = sumAlloc ps k + v.getD k 0 := by
  unfold RA.setProcess
  rw [hget]
  rw [sumAlloc_set ps i p (RA.grantProcess p v) hget k,
    grantProcess_alloc_getD p v hlen k]
  ring

lemma updateFirstGrant_nomatch (pid : String) (v : List Int) :
    ∀ ps : List RA.Process, ps.find? (fun q => q.pid == pid) = none →
      RA.updateFirstGrant ps pid v = ps := by
  intro ps
  induction ps with
  | nil => intro _; rfl
  | cons q rest ih =>
      intro hf
      have hq : (q.pid == pid) = false := by
        by_contra hq'
        have : (q.pid == pid) = true := by
          cases hqq : (q.pid == pid) with
          | true => rfl
          | false => exact absurd hqq hq'
        rw [@List.find?_cons_of_pos _ (fun q => q.pid == pid) q rest this] at hf
        exact Option.noConfusion hf
      rw [List.find?_cons_of_neg _ (by simp [hq])] at hf
      simp [RA.updateFirstGrant, hq, ih hf]

lemma sumAlloc_updateFirstGrant (pid : String) (v : List Int) :
    ∀ (ps : List RA.Process) (p : RA.Process),
      ps.find? (fun q => q.pid == pid) = some p →
      v.length ≤ p.allocated_resources.length → ∀ k,
      sumAlloc (RA.updateFirstGrant ps pid v) k = sumAlloc ps k + v.getD k 0 := by
  intro ps
  induction ps with
  | nil => intro p hf; simp at hf
  | cons q rest ih =>
      intro p hf hlen k
      by_cases hq : (q.pid == pid) = true
      · rw [@List.find?_cons_of_pos _ (fun q => q.pid == pid) q rest hq] at hf
        have hqp : q = p := Option.some_inj.1 hf
        subst hqp
        rw [show RA.updateFirstGrant (q :: rest) pid v =
            RA.grantProcess q v :: rest from by
          simp [RA.updateFirstGrant, hq, RA.grantProcess]]
        simp only [sumAlloc, List.map_cons, List.sum_cons]
        rw [grantProcess_alloc_getD q v hlen k]
        ring
      · rw [List.find?_cons_of_neg _ (by simpa using hq)] at hf
        rw [show RA.updateFirstGrant (q :: rest) pid v =
            q :: RA.updateFirstGrant rest pid v from by
          simp [RA.updateFirstGrant, hq]]
        have := ih p hf hlen k
        simp only [sumAlloc, List.map_cons, List.sum_cons] at this ⊢
        omega

lemma subPrefix_alloc_getD (p : RA.Process) (v : List Int)
    (hlen : v.length ≤ p.allocated_resources.length) (k : Nat) :
    (subPrefix p.allocated_resources v).getD k 0 =
      p.allocated_resources.getD k 0 - v.getD k 0 :=
  subPrefix_getD _ v hlen k

lemma sumAlloc_updateFirstRelease (pid : String) (v : List Int) :
    ∀ (ps : List RA.Process) (p : RA.Process),
      ps.find? (fun q => q.pid == pid) = some p →
      v.length ≤ p.allocated_resources.length → ∀ k,
      sumAlloc (RA.updateFirstRelease ps pid v) k =
        sumAlloc ps k - v.getD k 0 := by
  intro ps
  induction ps with
  | nil => intro p hf; simp at hf
  | cons q rest ih =>
      intro p hf hlen k
      by_cases hq : (q.pid == pid) = true
      · rw [@List.find?_cons_of_pos _ (fun q => q.pid == pid) q rest hq] at hf
        have hqp : q = p := Option.some_inj.1 hf
        subst hqp
        rw [show RA.updateFirstRelease (q :: rest) pid v =
            { q with
                allocated_resources := subPrefix q.allocated_resources v,
                need_resources := addPrefix q.need_resources v } :: rest from by
          simp [RA.updateFirstRelease, hq]]
        simp only [sumAlloc, List.map_cons, List.sum_cons]
        rw [subPrefix_getD _ v hlen k]
        ring
      · rw [List.find?_cons_of_neg _ (by simpa using hq)] at hf
        rw [show RA.updateFirstRelease (q :: rest) pid v =
            q :: RA.updateFirstRelease rest pid v from by
          simp [RA.updateFirstRelease, hq]]
        have := ih p hf hlen k
        simp only [sumAlloc, List.map_cons, List.sum_cons] at this ⊢
        omega

lemma conservation_transfer_sub (ps ps' : List RA.Process) (rs : List Resource)
    (v : List Int) (hlen : v.length ≤ rs.length)
    (hsum : ∀ k, k < rs.length → sumAlloc ps' k = sumAlloc ps k + v.getD k 0)
    (hc : Conservation ps rs) : Conservation ps' (subAvail rs v) := by
  intro k hk
  have hk' : k < rs.length := by
    rw [subAvail_length rs v hlen] at hk
    exact hk
  obtain ⟨ht, ha⟩ := subAvail_getD rs v hlen k hk'
  rw [ht, ha, hsum k hk']
  have := hc k hk'
  omega

lemma conservation_transfer_add (ps ps' : List RA.Process) (rs : List Resource)
    (v : List Int) (hlen : v.length ≤ rs.length)
    (hsum : ∀ k, k < rs.length → sumAlloc ps' k = sumAlloc ps k - v.getD k 0)
    (hc : Conservation ps rs) : Conservation ps' (addAvail rs v) := by
  intro k hk
  have hk' : k < rs.length := by
    rw [addAvail_length rs v hlen] at hk
    exact hk
  obtain ⟨ht, ha⟩ := addAvail_getD rs v hlen k hk'
  rw [ht, ha, hsum k hk']
  have := hc k hk'
  omega

lemma grantProcess_wf (R : Nat) (p : RA.Process) (v : List Int)
    (hwf : p.allocated_resources.length = R ∧ p.need_resources.length = R ∧
      p.max_resources.length = R) (hv : v.length = R) :
    (RA.grantProcess p v).allocated_resources.length = R ∧
    (RA.grantProcess p v).need_resources.length = R ∧
    (RA.grantProcess p v).max_resources.length = R := by
  obtain ⟨h1, h2, h3⟩ := hwf
  refine ⟨?_, ?_, ?_⟩
  · simp only [RA.grantProcess]
    rw [addPrefix_length _ v (by omega), h1]
  · simp only [RA.grantProcess]
    rw [subPrefix_length _ v (by omega), h2]
  · exact h3

lemma procWF_setProcess (R : Nat) (ps : List RA.Process) (i : Nat)
    (v : List Int) (hwf : ProcWF R ps) (hv : v.length = R) :
    ProcWF R (RA.setProcess ps i v) := by
  intro a ha
  rcases mem_setProcess ps i v a ha with ha' | ⟨p, hp, ha'⟩
  · exact hwf a ha'
  · rw [ha']
    exact grantProcess_wf R p v (hwf p (List.get?_mem hp)) hv

lemma procWF_updateFirstGrant (R : Nat) (ps : List RA.Process) (pid : String)
    (v : List Int) (hwf : ProcWF R ps) (hv : v.length = R) :
    ProcWF R (RA.updateFirstGrant ps pid v) := by
  intro a ha
  rcases mem_updateFirstGrant pid v ps a ha with ha' | ⟨p, hp, ha'⟩
  · exact hwf a ha'
  · rw [ha']
    exact grantProcess_wf R p v (hwf p (List.mem_of_find?_eq_some hp)) hv

lemma setProcess_length (ps : List RA.Process) (i : Nat) (v : List Int) :
    (RA.setProcess ps i v).length = ps.length := by
  unfold RA.setProcess
  cases ps.get? i with
  | none => rfl
  | some p => exact List.length_set ps i _

lemma get?_isSome_of_lt (ps : List RA.Process) (i : Nat) (h : i < ps.length) :
    ∃ p, ps.get? i = some p := by
  cases hget : ps.get? i with
  | none =>
      exfalso
      have := List.get?_eq_none.1 hget
      omega
  | some p => exact ⟨p, rfl⟩

lemma fcfsLoop_conservation (R : Nat) :
    ∀ (requests : List (String × List Int)) (sorted : List Nat)
      (ps : List RA.Process) (rs : List Resource),
      ProcWF R ps → ReqWF R requests → rs.length = R →
      (∀ j ∈ sorted, j < ps.length) → Conservation ps rs →
      Conservation (RA.fcfsLoop sorted requests ps rs).2.1
        (RA.fcfsLoop sorted requests ps rs).2.2 := by
  intro requests
  induction requests with
  | nil =>
      intro sorted ps rs _ _ _ _ hc
      simpa [RA.fcfsLoop] using hc
  | cons req rest ih =>
      intro sorted ps rs hwf hreq hrs hsort hc
      obtain ⟨pid, request⟩ := req
      have hreqh : request.length = R := hreq (pid, request) (by simp)
      have hreq' : ReqWF R rest := fun r hr => hreq r (List.mem_cons_of_mem _ hr)
      cases hl : RA.lookupSorted sorted ps pid with
      | none =>
          simpa [RA.fcfsLoop, hl] using
            ih sorted ps rs hwf hreq' hrs hsort hc
      | some i =>
          by_cases hg : RA.canGrant request rs = true
          · have hi : i < ps.length := by
              have hmem : i ∈ sorted := List.mem_of_find?_eq_some hl
              exact hsort i hmem
            obtain ⟨p, hget⟩ := get?_isSome_of_lt ps i hi
            have hplen := hwf p (List.get?_mem hget)
            have hsum : ∀ k, k < rs.length →
                sumAlloc (RA.setProcess ps i request) k =
                  sumAlloc ps k + request.getD k 0 := by
              intro k _
              exact sumAlloc_setProcess ps i request p hget (by omega) k
            have hc' := conservation_transfer_sub ps
              (RA.setProcess ps i request) rs request (by omega) hsum hc
            have hwf' := procWF_setProcess R ps i request hwf hreqh
            have hsort' : ∀ j ∈ sorted, j < (RA.setProcess ps i request).length := by
              intro j hj
              rw [setProcess_length]
              exact hsort j hj
            have hrs' : (subAvail rs request).length = R := by
              rw [subAvail_length rs request (by omega)]
              exact hrs
            simpa [RA.fcfsLoop, hl, hg] using
              ih sorted (RA.setProcess ps i request) (subAvail rs request)
                hwf' hreq' hrs' hsort' hc'
          · simpa [RA.fcfsLoop, hl, hg] using
              ih sorted ps rs hwf hreq' hrs hsort hc

lemma priorityLoop_conservation (R : Nat) :
    ∀ (triples : List (Int × String × List Int)) (ps : List RA.Process)
      (rs : List Resource),
      ProcWF R ps → (∀ t ∈ triples, t.2.2.length = R) → rs.length = R →
      Conservation ps rs →
      Conservation (RA.priorityLoop triples ps rs).2.1
        (RA.priorityLoop triples ps rs).2.2 := by
  intro triples
  induction triples with
  | nil =>
      intro ps rs _ _ _ hc
      simpa [RA.priorityLoop] using hc
  | cons t rest ih =>
      intro ps rs hwf htw hrs hc
      obtain ⟨prio, pid, request⟩ := t
      have hreqh : request.length = R := htw (prio, pid, request) (by simp)
      have htw' : ∀ t ∈ rest, t.2.2.length = R :=
        fun t ht => htw t (List.mem_cons_of_mem _ ht)
      cases hl : ps.find? (fun p => p.pid == pid) with
      | none =>
          simpa [RA.priorityLoop, hl] using ih ps rs hwf htw' hrs hc
      | some p =>
          by_cases hg : RA.canGrant request rs = true
          · have hplen := hwf p (List.mem_of_find?_eq_some hl)
            have hsum : ∀ k, k < rs.length →
                sumAlloc (RA.updateFirstGrant ps pid request) k =
                  sumAlloc ps k + request.getD k 0 := by
              intro k _
              exact sumAlloc_updateFirstGrant pid request ps p hl (by omega) k
            have hc' := conservation_transfer_sub ps
              (RA.updateFirstGrant ps pid request) rs request (by omega) hsum hc
            have hwf' := procWF_updateFirstGrant R ps pid request hwf hreqh
            have hrs' : (subAvail rs request).length = R := by
              rw [subAvail_length rs request (by omega)]
              exact hrs
            simpa [RA.priorityLoop, hl, hg] using
              ih (RA.updateFirstGrant ps pid request) (subAvail rs request)
                hwf' htw' hrs' hc'
          · simpa [RA.priorityLoop, hl, hg] using ih ps rs hwf htw' hrs hc

lemma rrLoop_conservation (R : Nat) (tq : Int) :
    ∀ (fuel : Nat) (queue : List (String × List Int)) (ps : List RA.Process)
      (rs : List Resource) (acc : List RequestResult)
      (out : List RequestResult × List RA.Process × List Resource),
      ProcWF R ps → (∀ q ∈ queue, q.2.length = R) → rs.length = R →
      Conservation ps rs →
      RA.rrLoop tq fuel queue ps rs acc = some out →
      Conservation out.2.1 out.2.2 := by
  intro fuel
  induction fuel with
  | zero =>
      intro queue ps rs acc out _ _ _ hc hrun
      cases queue with
      | nil =>
          have : out = (acc, ps, rs) := by
            have h : some (acc, ps, rs) = some out := by
              simpa [RA.rrLoop] using hrun
            exact (Option.some_inj.1 h).symm
          rw [this]
          exact hc
      | cons q rest =>
          exfalso
          simp [RA.rrLoop] at hrun
  | succ fuel ih =>
      intro queue ps rs acc out hwf hqw hrs hc hrun
      cases queue with
      | nil =>
          have : out = (acc, ps, rs) := by
            have h : some (acc, ps, rs) = some out := by
              simpa [RA.rrLoop] using hrun
            exact (Option.some_inj.1 h).symm
          rw [this]
          exact hc
      | cons q rest =>
          obtain ⟨pid, request⟩ := q
          have hreqh : request.length = R := hqw (pid, request) (by simp)
          have hqw' : ∀ q ∈ rest, q.2.length = R :=
            fun q hq => hqw q (List.mem_cons_of_mem _ hq)
          cases hl : ps.find? (fun p => p.pid == pid) with
          | none =>
              have hst : RA.rrStep tq pid request rest ps rs =
                  (rest, ps, rs, ⟨false, "Process " ++ pid ++ " not found"⟩) := by
                simp [RA.rrStep, hl]
              have hrun' : RA.rrLoop tq fuel rest ps rs
                  (acc ++ [⟨false, "Process " ++ pid ++ " not found"⟩]) =
                    some out := by
                rw [show RA.rrLoop tq (fuel + 1) ((pid, request) :: rest) ps rs acc =
                    RA.rrLoop tq fuel rest ps rs
                      (acc ++ [⟨false, "Process " ++ pid ++ " not found"⟩]) from by
                  simp [RA.rrLoop, hst]] at hrun
                exact hrun
              exact ih rest ps rs _ out hwf hqw' hrs hc hrun'
          | some p =>
              by_cases hg : RA.canGrant request rs = true
              · have hplen := hwf p (List.mem_of_find?_eq_some hl)
                set allocVec := request.map
                  (fun req => min req (min tq (listMax request))) with hA
                have hAlen : allocVec.length = R := by
                  rw [hA, List.length_map]
                  exact hreqh
                have hsum : ∀ k, k < rs.length →
                    sumAlloc (RA.updateFirstGrant ps pid allocVec) k =
                      sumAlloc ps k + allocVec.getD k 0 := by
                  intro k _
                  exact sumAlloc_updateFirstGrant pid allocVec ps p hl
                    (by omega) k
                have hc' := conservation_transfer_sub ps
                  (RA.updateFirstGrant ps pid allocVec) rs allocVec
                  (by omega) hsum hc
                have hwf' := procWF_updateFirstGrant R ps pid allocVec hwf hAlen
                have hrs' : (subAvail rs allocVec).length = R := by
                  rw [subAvail_length rs allocVec (by omega)]
                  exact hrs
                have hneedlen : (RA.grantProcess p allocVec).need_resources.length
                    = R := (grantProcess_wf R p allocVec hplen hAlen).2.1
                by_cases hz : ((RA.grantProcess p allocVec).need_resources.all
                    fun n => n == 0) = true
                · have hst : RA.rrStep tq pid request rest ps rs =
                      (rest, RA.updateFirstGrant ps pid allocVec,
                        subAvail rs allocVec,
                        ⟨true, "Request by " ++ pid ++ " completed"⟩) := by
                    simp [RA.rrStep, hl, hg, hz, hA]
                  have hrun' : RA.rrLoop tq fuel rest
                      (RA.updateFirstGrant ps pid allocVec)
                      (subAvail rs allocVec)
                      (acc ++ [⟨true, "Request by " ++ pid ++ " completed"⟩]) =
                        some out := by
                    rw [show RA.rrLoop tq (fuel + 1) ((pid, request) :: rest)
                        ps rs acc = RA.rrLoop tq fuel rest
                          (RA.updateFirstGrant ps pid allocVec)
                          (subAvail rs allocVec)
                          (acc ++ [⟨true, "Request by " ++ pid ++ " completed"⟩])
                        from by simp [RA.rrLoop, hst]] at hrun
                    exact hrun
                  exact ih rest _ _ _ out hwf' hqw' hrs' hc' hrun'
                · have hst : RA.rrStep tq pid request rest ps rs =
                      (rest ++ [(pid, (RA.grantProcess p allocVec).need_resources.map
                          (fun n => max 0 n))],
                        RA.updateFirstGrant ps pid allocVec,
                        subAvail rs allocVec,
                        ⟨true, "Request by " ++ pid ++
                          " partially granted, re-queued"⟩) := by
                    simp [RA.rrStep, hl, hg, hz, hA]
                  have hqw2 : ∀ q ∈ rest ++ [(pid,
                      (RA.grantProcess p allocVec).need_resources.map
                        (fun n => max 0 n))], q.2.length = R := by
                    intro q hq
                    rcases List.mem_append.1 hq with hq' | hq'
                    · exact hqw' q hq'
                    · have : q = (pid, (RA.grantProcess p allocVec).need_resources.map
                          (fun n => max 0 n)) := by simpa using hq'
                      rw [this]
                      simpa using hneedlen
                  have hrun' : RA.rrLoop tq fuel (rest ++ [(pid,
                      (RA.grantProcess p allocVec).need_resources.map
                        (fun n => max 0 n))])
                      (RA.updateFirstGrant ps pid allocVec)
                      (subAvail rs allocVec)
                      (acc ++ [⟨true, "Request by " ++ pid ++
                        " partially granted, re-queued"⟩]) = some out := by
                    rw [show RA.rrLoop tq (fuel + 1) ((pid, request) :: rest)
                        ps rs acc = RA.rrLoop tq fuel (rest ++ [(pid,
                          (RA.grantProcess p allocVec).need_resources.map
                            (fun n => max 0 n))])
                          (RA.updateFirstGrant ps pid allocVec)
                          (subAvail rs allocVec)
                          (acc ++ [⟨true, "Request by " ++ pid ++
                            " partially granted, re-queued"⟩])
                        from by simp [RA.rrLoop, hst]] at hrun
                    exact hrun
                  exact ih _ _ _ _ out hwf' hqw2 hrs' hc' hrun'
              · have hst : RA.rrStep tq pid request rest ps rs =
                    (rest ++ [(pid, request)], ps, rs,
                      ⟨false, "Request by " ++ pid ++ " denied, re-queued"⟩) := by
                  simp [RA.rrStep, hl, hg]
                have hqw2 : ∀ q ∈ rest ++ [(pid, request)], q.2.length = R := by
                  intro q hq
                  rcases List.mem_append.1 hq with hq' | hq'
                  · exact hqw' q hq'
                  · have : q = (pid, request) := by simpa using hq'
                    rw [this]
                    exact hreqh
                have hrun' : RA.rrLoop tq fuel (rest ++ [(pid, request)]) ps rs
                    (acc ++ [⟨false, "Request by " ++ pid ++
                      " denied, re-queued"⟩]) = some out := by
                  rw [show RA.rrLoop tq (fuel + 1) ((pid, request) :: rest)
                      ps rs acc = RA.rrLoop tq fuel (rest ++ [(pid, request)])
                        ps rs (acc ++ [⟨false, "Request by " ++ pid ++
                          " denied, re-queued"⟩])
                      from by simp [RA.rrLoop, hst]] at hrun
                  exact hrun
                exact ih _ _ _ _ out hwf hqw2 hrs hc hrun'

lemma simulate_granted_found (ps : List RA.Process) (rs : List Resource)
    (pid : String) (request : List Int) :
    (RA.simulate_request_bankers ps rs pid request).1.granted = true →
      ∃ p, ps.find? (fun q => q.pid == pid) = some p := by
  unfold RA.simulate_request_bankers
  cases hfind : ps.find? (fun p => p.pid == pid) with
  | none => simp
  | some p => intro _; exact ⟨p, rfl⟩

lemma simulate_conservation (R : Nat) (ps : List RA.Process)
    (rs : List Resource) (pid : String) (request : List Int)
    (hwf : ProcWF R ps) (hreq : request.length = R) (hrs : rs.length = R)
    (hc : Conservation ps rs) :
    Conservation (RA.simulate_request_bankers ps rs pid request).2.1
      (RA.simulate_request_bankers ps rs pid request).2.2 := by
  cases hg : (RA.simulate_request_bankers ps rs pid request).1.granted with
  | false =>
      obtain ⟨h1, h2⟩ := RA_simulate_denied_unchanged ps rs pid request hg
      rw [h1, h2]
      exact hc
  | true =>
      obtain ⟨h1, h2⟩ := RA_simulate_granted_applies ps rs pid request hg
      obtain ⟨p, hfind⟩ := simulate_granted_found ps rs pid request hg
      have hplen := hwf p (List.mem_of_find?_eq_some hfind)
      rw [h1, h2]
      apply conservation_transfer_sub ps _ rs request (by omega) _ hc
      intro k _
      exact sumAlloc_updateFirstGrant pid request ps p hfind (by omega) k

lemma deallocate_conservation (R : Nat) (ps : List RA.Process)
    (rs : List Resource) (pid : String) (release : List Int)
    (hwf : ProcWF R ps) (hrel : release.length = R) (hrs : rs.length = R)
    (hc : Conservation ps rs) :
    Conservation (RA.deallocate_resources ps rs pid release).2.1
      (RA.deallocate_resources ps rs pid release).2.2 := by
  unfold RA.deallocate_resources
  cases hfind : ps.find? (fun p => p.pid == pid) with
  | none => exact hc
  | some p =>
      by_cases hx : ((release.zip p.allocated_resources).any
          fun pr => decide (pr.1 > pr.2)) = true
      · simp only [hx, if_pos]
        exact hc
      · simp only [hx, Bool.false_eq_true, if_neg, not_false_iff]
        have hplen := hwf p (List.mem_of_find?_eq_some hfind)
        apply conservation_transfer_add ps _ rs release (by omega) _ hc
        intro k _
        exact sumAlloc_updateFirstRelease pid release ps p hfind (by omega) k

/-- The per-process fair-share quantity for resource slot `i`:
`min(fair + (1 if j < rem else 0), max_resources[i])`. -/
def fsVal (i : Nat) (fair rem : Int) (j : Nat) (p : RA.Process) : Int :=
  min (fair + (if (j : Int) < rem then 1 else 0)) (p.max_resources.getD i 0)

/-- Total fair-share quantity handed out for slot `i` over a process list,
starting at position `j`. -/
def fsSum (i : Nat) (fair rem : Int) : Nat → List RA.Process → Int
  | _, [] => 0
  | j, p :: rest => fsVal i fair rem j p + fsSum i fair rem (j + 1) rest

lemma getD_set_self : ∀ (l : List Int) (i : Nat) (v : Int), i < l.length →
    (l.set i v).getD i 0 = v := by
  intro l
  induction l with
  | nil => intro i v h; simp at h
  | cons x xs ih =>
      intro i v h
      cases i with
      | zero => rfl
      | succ i =>
          rw [List.set_cons_succ, List.getD_cons_succ]
          exact ih i v (by simpa using h)

lemma getD_set_ne : ∀ (l : List Int) (i i' : Nat) (v : Int), i ≠ i' →
    (l.set i v).getD i' 0 = l.getD i' 0 := by
  intro l
  induction l with
  | nil => intro i i' v _; simp
  | cons x xs ih =>
      intro i i' v hne
      cases i with
      | zero =>
          cases i' with
          | zero => exact absurd rfl hne
          | succ i' => rfl
      | succ i =>
          cases i' with
          | zero => rfl
          | succ i' =>
              rw [List.set_cons_succ, List.getD_cons_succ, List.getD_cons_succ]
              exact ih i i' v (by omega)

lemma fairShareInner_avail (numR : Nat) (i : Nat) (fair rem : Int) :
    ∀ (ps : List RA.Process) (j : Nat) (allocs : List (String × List Int))
      (avail : Int),
      (RA.fairShareInner numR i fair rem j ps allocs avail).2.2 =
        avail - fsSum i fair rem j ps := by
  intro ps
  induction ps with
  | nil => intro j allocs avail; simp [RA.fairShareInner, fsSum]
  | cons p rest ih =>
      intro j allocs avail
      rw [show (RA.fairShareInner numR i fair rem j (p :: rest) allocs avail).2.2 =
          (RA.fairShareInner numR i fair rem (j + 1) rest
            (dictSetAt allocs p.pid numR i (fsVal i fair rem j p))
            (avail - fsVal i fair rem j p)).2.2 from rfl]
      rw [ih (j + 1) _ _]
      rw [show fsSum i fair rem j (p :: rest) =
          fsVal i fair rem j p + fsSum i fair rem (j + 1) rest from rfl]
      ring

lemma fairShareInner_sumAlloc_eq (numR : Nat) (i : Nat) (fair rem : Int) :
    ∀ (ps : List RA.Process) (j : Nat) (allocs : List (String × List Int))
      (avail : Int),
      (∀ p ∈ ps, i < p.allocated_resources.length) →
      sumAlloc (RA.fairShareInner numR i fair rem j ps allocs avail).1 i =
        fsSum i fair rem j ps := by
  intro ps
  induction ps with
  | nil => intro j allocs avail _; simp [RA.fairShareInner, fsSum, sumAlloc]
  | cons p rest ih =>
      intro j allocs avail hlen
      rw [show (RA.fairShareInner numR i fair rem j (p :: rest) allocs avail).1 =
          { p with
              allocated_resources :=
                p.allocated_resources.set i (fsVal i fair rem j p),
              need_resources := p.need_resources.set i
                (p.max_resources.getD i 0 - fsVal i fair rem j p) } ::
            (RA.fairShareInner numR i fair rem (j + 1) rest
              (dictSetAt allocs p.pid numR i (fsVal i fair rem j p))
              (avail - fsVal i fair rem j p)).1 from rfl]
      simp only [sumAlloc, List.map_cons, List.sum_cons]
      rw [getD_set_self _ i _ (hlen p (by simp))]
      have := ih (j + 1) (dictSetAt allocs p.pid numR i (fsVal i fair rem j p))
        (avail - fsVal i fair rem j p)
        (fun q hq => hlen q (List.mem_cons_of_mem _ hq))
      simp only [sumAlloc] at this
      rw [this]
      rfl

lemma fairShareInner_sumAlloc_ne (numR : Nat) (i : Nat) (fair rem : Int) :
    ∀ (ps : List RA.Process) (j : Nat) (allocs : List (String × List Int))
      (avail : Int) (k : Nat), k ≠ i →
      sumAlloc (RA.fairShareInner numR i fair rem j ps allocs avail).1 k =
        sumAlloc ps k := by
  intro ps
  induction ps with
  | nil => intro j allocs avail k _; rfl
  | cons p rest ih =>
      intro j allocs avail k hk
      rw [show (RA.fairShareInner numR i fair rem j (p :: rest) allocs avail).1 =
          { p with
              allocated_resources :=
                p.allocated_resources.set i (fsVal i fair rem j p),
              need_resources := p.need_resources.set i
                (p.max_resources.getD i 0 - fsVal i fair rem j p) } ::
            (RA.fairShareInner numR i fair rem (j + 1) rest
              (dictSetAt allocs p.pid numR i (fsVal i fair rem j p))
              (avail - fsVal i fair rem j p)).1 from rfl]
      simp only [sumAlloc, List.map_cons, List.sum_cons]
      rw [getD_set_ne _ i k _ (fun h => hk h.symm)]
      have := ih (j + 1) (dictSetAt allocs p.pid numR i (fsVal i fair rem j p))
        (avail - fsVal i fair rem j p) k hk
      simp only [sumAlloc] at this
      rw [this]

lemma fairShareInner_wf (R numR : Nat) (i : Nat) (fair rem : Int) :
    ∀ (ps : List RA.Process) (j : Nat) (allocs : List (String × List Int))
      (avail : Int), ProcWF R ps →
      ProcWF R (RA.fairShareInner numR i fair rem j ps allocs avail).1 := by
  intro ps
  induction ps with
  | nil => intro j allocs avail _ a ha; simp [RA.fairShareInner] at ha
  | cons p rest ih =>
      intro j allocs avail hwf a ha
      rw [show (RA.fairShareInner numR i fair rem j (p :: rest) allocs avail).1 =
          { p with
              allocated_resources :=
                p.allocated_resources.set i (fsVal i fair rem j p),
              need_resources := p.need_resources.set i
                (p.max_resources.getD i 0 - fsVal i fair rem j p) } ::
            (RA.fairShareInner numR i fair rem (j + 1) rest
              (dictSetAt allocs p.pid numR i (fsVal i fair rem j p))
              (avail - fsVal i fair rem j p)).1 from rfl] at ha
      rcases List.mem_cons.1 ha with ha' | ha'
      · obtain ⟨h1, h2, h3⟩ := hwf p (by simp)
        rw [ha']
        refine ⟨?_, ?_, ?_⟩
        · simpa using h1
        · simpa using h2
        · simpa using h3
      · exact ih (j + 1) _ _ (fun q hq => hwf q (List.mem_cons_of_mem _ hq)) a ha'

lemma fairShareOuter_conservation (R : Nat) (num : Int) (numR : Nat) :
    ∀ (rsRem : List Resource) (i : Nat) (ps : List RA.Process)
      (allocs : List (String × List Int)),
      ProcWF R ps → i + rsRem.length ≤ R →
      (∀ idx, idx < rsRem.length →
        (rsRem.getD idx default).available_instances =
          (rsRem.getD idx default).total_instances) →
      (∀ k, i ≤ k → sumAlloc ps k = 0) →
      (RA.fairShareOuter num numR i rsRem ps allocs).1.length = rsRem.length ∧
      (∀ k, k < i →
        sumAlloc (RA.fairShareOuter num numR i rsRem ps allocs).2.1 k =
          sumAlloc ps k) ∧
      (∀ idx, idx < rsRem.length →
        ((RA.fairShareOuter num numR i rsRem ps allocs).1.getD idx
            default).available_instances +
          sumAlloc (RA.fairShareOuter num numR i rsRem ps allocs).2.1 (i + idx) =
        ((RA.fairShareOuter num numR i rsRem ps allocs).1.getD idx
            default).total_instances) := by
  intro rsRem
  induction rsRem with
  | nil =>
      intro i ps allocs _ _ _ _
      refine ⟨rfl, ?_, ?_⟩
      · intro k _; rfl
      · intro idx h; simp at h
  | cons r rsRem ih =>
      intro i ps allocs hwf hle havail hz
      set fair := Int.fdiv r.total_instances num with hfair
      set rem := Int.fmod r.total_instances num with hrem
      set inner := RA.fairShareInner numR i fair rem 0 ps allocs
        r.available_instances with hinner
      have hwf' : ProcWF R inner.1 := by
        rw [hinner]
        exact fairShareInner_wf R numR i fair rem ps 0 allocs
          r.available_instances hwf
      have hz' : ∀ k, i + 1 ≤ k → sumAlloc inner.1 k = 0 := by
        intro k hk
        rw [hinner, fairShareInner_sumAlloc_ne numR i fair rem ps 0 allocs
          r.available_instances k (by omega)]
        exact hz k (by omega)
      have havail' : ∀ idx, idx < rsRem.length →
          (rsRem.getD idx default).available_instances =
            (rsRem.getD idx default).total_instances := by
        intro idx hidx
        have := havail (idx + 1) (by simpa using Nat.succ_lt_succ hidx)
        simpa using this
      have hrec := ih (i + 1) inner.1 inner.2.1 hwf'
        (by simpa [Nat.add_comm, Nat.add_left_comm] using hle) havail' hz'
      set rec := RA.fairShareOuter num numR (i + 1) rsRem inner.1 inner.2.1
        with hrecdef
      have hout : RA.fairShareOuter num numR i (r :: rsRem) ps allocs =
          ({ r with available_instances := inner.2.2 } :: rec.1, rec.2) := by
        rw [hinner, hrecdef]
        rfl
      have hsum_i : sumAlloc rec.2.1 i = fsSum i fair rem 0 ps := by
        rw [hrec.2.1 i (by omega)]
        rw [hinner]
        apply fairShareInner_sumAlloc_eq
        intro p hp
        have h1 := (hwf p hp).1
        have h2 := hle
        simp only [List.length_cons] at h2
        omega
      refine ⟨?_, ?_, ?_⟩
      · rw [hout]
        simpa using hrec.1
      · intro k hk
        rw [hout]
        have h1 := hrec.2.1 k (by omega)
        rw [h1, hinner, fairShareInner_sumAlloc_ne numR i fair rem ps 0 allocs
          r.available_instances k (by omega)]
      · intro idx hidx
        cases idx with
        | zero =>
            rw [hout]
            simp only [List.getD_cons_zero, Nat.add_zero]
            have havail0 : r.available_instances = r.total_instances := by
              have := havail 0 (by simp)
              simpa using this
            have hin : inner.2.2 =
                r.available_instances - fsSum i fair rem 0 ps := by
              rw [hinner]
              exact fairShareInner_avail numR i fair rem ps 0 allocs
                r.available_instances
            rw [hin, hsum_i, havail0]
            ring
        | succ idx =>
            rw [hout]
            simp only [List.getD_cons_succ]
            have := hrec.2.2 idx (by simpa using hidx)
            rw [show i + (idx + 1) = (i + 1) + idx from by omega]
            exact this

lemma sumAlloc_zero (R : Nat) (ps : List RA.Process)
    (hwf : ProcWF R ps)
    (hzero : ∀ p ∈ ps, ∀ k < R, p.allocated_resources.getD k 0 = 0) :
    ∀ k, sumAlloc ps k = 0 := by
  intro k
  unfold sumAlloc
  induction ps with
  | nil => rfl
  | cons p rest ih =>
      have hp : p.allocated_resources.getD k 0 = 0 := by
        by_cases hk : k < R
        · exact hzero p (by simp) k hk
        · apply List.getD_eq_default
          have := (hwf p (by simp)).1
          omega
      rw [List.map_cons, List.sum_cons, hp,
        ih (fun q hq => hwf q (List.mem_cons_of_mem _ hq))
          (fun q hq => hzero q (List.mem_cons_of_mem _ hq))]
      ring

lemma fair_share_conservation (R : Nat) (ps : List RA.Process)
    (rs : List Resource) (hwf : ProcWF R ps) (hrs : rs.length = R)
    (hzero : ∀ p ∈ ps, ∀ k < R, p.allocated_resources.getD k 0 = 0)
    (hc : Conservation ps rs) :
    Conservation (RA.fair_share_allocation ps rs).2.1
      (RA.fair_share_allocation ps rs).2.2 := by
  by_cases hps : ps.isEmpty = true
  · unfold RA.fair_share_allocation
    rw [if_pos hps]
    exact hc
  · have hz : ∀ k, sumAlloc ps k = 0 := sumAlloc_zero R ps hwf hzero
    have havail : ∀ idx, idx < rs.length →
        (rs.getD idx default).available_instances =
          (rs.getD idx default).total_instances := by
      intro idx hidx
      have := hc idx hidx
      have := hz idx
      omega
    have houter := fairShareOuter_conservation R (ps.length : Int) rs.length
      rs 0 ps [] hwf (by omega) havail (fun k _ => hz k)
    unfold RA.fair_share_allocation
    rw [if_neg hps]
    intro idx hidx
    have hlen : (RA.fairShareOuter (ps.length : Int) rs.length 0 rs ps []).1.length
        = rs.length := houter.1
    have hidx' : idx < rs.length := by
      simpa [hlen] using hidx
    have := houter.2.2 idx hidx'
    simpa using this

/-- The one-process state exhibiting the C3 violation: a prior allocation of
1 instance, conservation holding (`1 + 1 = 2`). -/
def psFairCx : List RA.Process := [RA.Process.make "A" [2] [1] 0 0]

/-- Its resource row: total 2, available 1. -/
def rsFairCx : List Resource := [⟨"R", 2, 1⟩]

/-- Counterexample to C3: `fair_share_allocation` overwrites the prior
allocation without returning it to the pool and subtracts the new allocation
from the current availability, so conservation — holding before the call —
is violated after it (`available` becomes `-1` while `Σ allocated = 2`,
total `2`). -/
theorem fair_share_breaks_conservation :
    conservationB psFairCx rsFairCx = true ∧
    conservationB (RA.fair_share_allocation psFairCx rsFairCx).2.1
      (RA.fair_share_allocation psFairCx rsFairCx).2.2 = false := by decide

/-- C3 amended: conservation
(`available[i] + Σ allocated[i] = total_instances[i]`) is preserved by
`fcfs_allocation`, `priority_allocation`, `round_robin_allocation` (whenever
its queue loop terminates), `simulate_request_bankers` and
`deallocate_resources`; `fair_share_allocation` preserves it only when every
process had a zero prior allocation (otherwise it breaks it, see the
counterexample). -/
theorem conservation_preserved_except_fair_share
    (R : Nat) (ps : List RA.Process) (rs : List Resource)
    (requests : List (String × List Int)) (pid : String) (v : List Int)
    (tq : Int)
    (hwf : ProcWF R ps) (hreq : ReqWF R requests) (hv : v.length = R)
    (hrs : rs.length = R) (hc : Conservation ps rs) :
    Conservation (RA.fcfs_allocation ps rs requests).2.1
      (RA.fcfs_allocation ps rs requests).2.2 ∧
    Conservation (RA.priority_allocation ps rs requests).2.1
      (RA.priority_allocation ps rs requests).2.2 ∧
    (∀ (fuel : Nat) (out : List RequestResult × List RA.Process × List Resource),
      RA.round_robin_allocation ps rs requests tq fuel = some out →
      Conservation out.2.1 out.2.2) ∧
    Conservation (RA.simulate_request_bankers ps rs pid v).2.1
      (RA.simulate_request_bankers ps rs pid v).2.2 ∧
    Conservation (RA.deallocate_resources ps rs pid v).2.1
      (RA.deallocate_resources ps rs pid v).2.2 ∧
    ((∀ p ∈ ps, ∀ k < R, p.allocated_resources.getD k 0 = 0) →
      Conservation (RA.fair_share_allocation ps rs).2.1
        (RA.fair_share_allocation ps rs).2.2) := by
  refine ⟨?_, ?_, ?_, ?_, ?_, ?_⟩
  · apply fcfsLoop_conservation R requests (RA.sortedIndices ps) ps rs hwf hreq
      hrs _ hc
    intro j hj
    have : j ∈ List.range ps.length :=
      (perm_stableSortBy _ _).mem_iff.1 hj
    exact List.mem_range.1 this
  · apply priorityLoop_conservation R _ ps rs hwf _ hrs hc
    intro t ht
    have ht' : t ∈ RA.priorityRequests ps requests :=
      (perm_stableSortBy _ _).mem_iff.1 ht
    exact hreq _ (mem_priorityRequests ps requests t ht')
  · intro fuel out hrun
    exact rrLoop_conservation R tq fuel requests ps rs [] out hwf
      (fun q hq => hreq q hq) hrs hc hrun
  · exact simulate_conservation R ps rs pid v hwf hv hrs hc
  · exact deallocate_conservation R ps rs pid v hwf hv hrs hc
  · intro hzero
    exact fair_share_conservation R ps rs hwf hrs hzero hc

/-- Witness for the amended C3 theorem: an in-range grant under FCFS keeps
conservation on a concrete ledger. -/
theorem conservation_preserved_witness :
    Conservation (RA.fcfs_allocation [RA.Process.make "A" [2] [1] 0 0]
        [⟨"R", 2, 1⟩] [("A", [1])]).2.1
      (RA.fcfs_allocation [RA.Process.make "A" [2] [1] 0 0]
        [⟨"R", 2, 1⟩] [("A", [1])]).2.2 :=
  (conservation_preserved_except_fair_share 1
    [RA.Process.make "A" [2] [1] 0 0] [⟨"R", 2, 1⟩] [("A", [1])] "A" [1] 1
    (by unfold ProcWF; decide) (by unfold ReqWF; decide) (by decide)
    (by decide) (by unfold Conservation sumAlloc; decide)).1

/-- A wait-for graph, as the Python dict `{process: [processes it waits
for]}` (insertion-ordered association list with unique keys). -/
def WFG : Type := List (String × List String)

/-- `wait_for_graph.get(node, [])`: outgoing edges; nodes absent as keys
have none. -/
def edges (g : WFG) (n : String) : List String :=
  ((List.find? (fun e => e.1 == n) g).map (·.2)).getD []

/-- `b` is a direct successor of `a`. -/
def edgeMem (g : WFG) (a b : String) : Prop := b ∈ edges g a

/-- Reflexive-transitive closure of the edge relation. -/
inductive Reach (g : WFG) : String → String → Prop
  | refl (a : String) : Reach g a a
  | step {a b c : String} : edgeMem g a b → Reach g b c → Reach g a c

/-- A directed cycle: an edge `a → b` together with a path `b →* a`. -/
def HasCycle (g : WFG) : Prop := ∃ a b, edgeMem g a b ∧ Reach g b a

/-- All node names occurring in the graph (keys and edge targets). -/
def nodesOf (g : WFG) : List String :=
  ((g.map (·.1)) ++ (g.map (·.2)).flatten).dedup

mutual

/-- The Python `has_cycle(node, visited, rec_stack)` body: mark the node
visited and on the stack, iterate its neighbours, and pop it from the stack
when no cycle propagates.  `fuel` bounds the recursion depth; `none` means
fuel ran out (never happens from the entry point, proved below). -/
def dfsVisit (g : WFG) (fuel : Nat) (n : String)
    (visited recStack : List String) :
    Option (Bool × List String × List String) :=
  match fuel with
  | 0 => none
  | fuel' + 1 =>
      match dfsNbrs g fuel' (edges g n) (n :: visited) (n :: recStack) with
      | none => none
      | some (true, v', s') => some (true, v', s')
      | some (false, v', s') => some (false, v', s'.erase n)
termination_by (fuel, 0)

/-- The `for neighbor in wait_for_graph.get(node, [])` loop: recurse into
unvisited neighbours, report a cycle on a back edge into the recursion
stack. -/
def dfsNbrs (g : WFG) (fuel : Nat) (ys : List String)
    (visited recStack : List String) :
    Option (Bool × List String × List String) :=
  match ys with
  | [] => some (false, visited, recStack)
  | y :: ys' =>
      if y ∈ visited then
        if y ∈ recStack then some (true, visited, recStack)
        else dfsNbrs g fuel ys' visited recStack
      else
        match dfsVisit g fuel y visited recStack with
        | none => none
        | some (true, v', s') => some (true, v', s')
        | some (false, v', s') => dfsNbrs g fuel ys' v' s'
termination_by (fuel, ys.length + 1)

end

/-- The `for process in wait_for_graph` driver loop: run the DFS from each
not-yet-visited key, returning the recursion-stack snapshot on the first
cycle and `[]` when none is found. -/
def detectLoop (g : WFG) (fuel : Nat) :
    List String → List String → List String → Option (List String)
  | [], _, _ => some []
  | k :: ks, visited, recStack =>
      if k ∈ visited then detectLoop g fuel ks visited recStack
      else
        match dfsVisit g fuel k visited recStack with
        | none => none
        | some (true, _, s') => some s'
        | some (false, v', s') => detectLoop g fuel ks v' s'

/-- Result record of `detect_deadlock_wait_for_graph`. -/
structure DetectResult where
  deadlock_detected : Bool
  deadlocked_processes : List String
  message : String
deriving Repr, DecidableEq, Inhabited

/-- `DeadlockAlgorithms.detect_deadlock_wait_for_graph(wait_for_graph)`.
The entry fuel `(nodesOf g).length` is proved sufficient below, so the
`none` (fuel ran out) case never occurs. -/
def detect_deadlock_wait_for_graph (g : WFG) : Option DetectResult :=
  match detectLoop g (nodesOf g).length (g.map (·.1)) [] [] with
  | none => none
  | some dl =>
      some ⟨decide (0 < dl.length), dl,
        if 0 < dl.length then
          "Deadlock detected among processes: " ++ toString dl
        else "No deadlock detected"⟩

lemma dfsVisit_zero (g : WFG) (n : String) (V S : List String) :
    dfsVisit g 0 n V S = none := by
  conv_lhs => unfold dfsVisit

lemma dfsVisit_succ (g : WFG) (fuel : Nat) (n : String) (V S : List String) :
    dfsVisit g (fuel + 1) n V S =
      match dfsNbrs g fuel (edges g n) (n :: V) (n :: S) with
      | none => none
      | some (true, v', s') => some (true, v', s')
      | some (false, v', s') => some (false, v', s'.erase n) := by
  conv_lhs => unfold dfsVisit

lemma dfsNbrs_nil (g : WFG) (fuel : Nat) (V S : List String) :
    dfsNbrs g fuel [] V S = some (false, V, S) := by
  conv_lhs => unfold dfsNbrs

lemma dfsNbrs_cons (g : WFG) (fuel : Nat) (y : String) (ys : List String)
    (V S : List String) :
    dfsNbrs g fuel (y :: ys) V S =
      if y ∈ V then
        if y ∈ S then some (true, V, S) else dfsNbrs g fuel ys V S
      else
        match dfsVisit g fuel y V S with
        | none => none
        | some (true, v', s') => some (true, v', s')
        | some (false, v', s') => dfsNbrs g fuel ys v' s' := by
  conv_lhs => unfold dfsNbrs

lemma edges_subset_nodes (g : WFG) (n : String) :
    ∀ y ∈ edges g n, y ∈ nodesOf g := by
  intro y hy
  unfold edges at hy
  cases hf : List.find? (fun e => e.1 == n) g with
  | none => rw [hf] at hy; simp at hy
  | some e =>
      rw [hf] at hy
      simp only [Option.map_some', Option.getD_some] at hy
      unfold nodesOf
      rw [List.mem_dedup]
      apply List.mem_append.2
      right
      refine List.mem_flatten.2 ⟨e.2, ?_, hy⟩
      exact List.mem_map.2 ⟨e, List.mem_of_find?_eq_some hf, rfl⟩

lemma keys_subset_nodes (g : WFG) :
    ∀ k ∈ g.map (·.1), k ∈ nodesOf g := by
  intro k hk
  unfold nodesOf
  rw [List.mem_dedup]
  exact List.mem_append.2 (Or.inl hk)

lemma key_of_edge (g : WFG) (a b : String) (h : edgeMem g a b) :
    a ∈ g.map (·.1) := by
  unfold edgeMem edges at h
  cases hf : List.find? (fun e => e.1 == a) g with
  | none => rw [hf] at h; simp at h
  | some e =>
      have hea : e.1 = a := by
        have := List.find?_some hf
        simpa using this
      exact List.mem_map.2 ⟨e, List.mem_of_find?_eq_some hf, hea⟩

lemma dfs_state :
    ∀ (g : WFG) (fuel : Nat),
      (∀ (n : String) (V S : List String) r,
        dfsVisit g fuel n V S = some r →
        (∀ x ∈ V, x ∈ r.2.1) ∧ n ∈ r.2.1 ∧ (r.1 = false → r.2.2 = S) ∧
        (V.Nodup → n ∉ V → r.2.1.Nodup) ∧
        (V ⊆ nodesOf g → n ∈ nodesOf g → r.2.1 ⊆ nodesOf g)) ∧
      (∀ (ys : List String) (V S : List String) r,
        dfsNbrs g fuel ys V S = some r →
        (∀ x ∈ V, x ∈ r.2.1) ∧ (r.1 = false → r.2.2 = S) ∧
        (V.Nodup → r.2.1.Nodup) ∧
        (V ⊆ nodesOf g → (∀ y ∈ ys, y ∈ nodesOf g) → r.2.1 ⊆ nodesOf g)) := by
  intro g fuel
  induction fuel with
  | zero =>
      constructor
      · intro n V S r h
        rw [dfsVisit_zero] at h
        exact Option.noConfusion h
      · intro ys
        induction ys with
        | nil =>
            intro V S r h
            rw [dfsNbrs_nil] at h
            have hr : r = (false, V, S) := (Option.some_inj.1 h).symm
            subst hr
            exact ⟨fun x hx => hx, fun _ => rfl, fun h => h, fun h _ => h⟩
        | cons y ys ihys =>
            intro V S r h
            rw [dfsNbrs_cons] at h
            by_cases hyV : y ∈ V
            · rw [if_pos hyV] at h
              by_cases hyS : y ∈ S
              · rw [if_pos hyS] at h
                have hr : r = (true, V, S) := (Option.some_inj.1 h).symm
                subst hr
                refine ⟨fun x hx => hx, ?_, fun h => h, fun h _ => h⟩
                intro hfalse
                exact absurd hfalse (by simp)
              · rw [if_neg hyS] at h
                obtain ⟨h1, h2, h3, h4⟩ := ihys V S r h
                exact ⟨h1, h2, h3, fun hV hys =>
                  h4 hV (fun z hz => hys z (List.mem_cons_of_mem _ hz))⟩
            · rw [if_neg hyV] at h
              rw [dfsVisit_zero] at h
              exact Option.noConfusion h
  | succ fuel ih =>
      have hvisit : ∀ (n : String) (V S : List String) r,
          dfsVisit g (fuel + 1) n V S = some r →
          (∀ x ∈ V, x ∈ r.2.1) ∧ n ∈ r.2.1 ∧ (r.1 = false → r.2.2 = S) ∧
          (V.Nodup → n ∉ V → r.2.1.Nodup) ∧
          (V ⊆ nodesOf g → n ∈ nodesOf g → r.2.1 ⊆ nodesOf g) := by
        intro n V S r h
        rw [dfsVisit_succ] at h
        cases hn : dfsNbrs g fuel (edges g n) (n :: V) (n :: S) with
        | none => rw [hn] at h; exact Option.noConfusion h
        | some x =>
            obtain ⟨b, v', s'⟩ := x
            obtain ⟨h1, h2, h3, h4⟩ := ih.2 (edges g n) (n :: V) (n :: S)
              (b, v', s') hn
            cases b with
            | true =>
                rw [hn] at h
                have hr : r = (true, v', s') := (Option.some_inj.1 h).symm
                subst hr
                refine ⟨fun x hx => h1 x (List.mem_cons_of_mem _ hx),
                  h1 n (by simp), ?_, ?_, ?_⟩
                · intro hfalse; exact absurd hfalse (by simp)
                · intro hnd hnV
                  exact h3 (by simp [hnd, hnV])
                · intro hVN hnN
                  apply h4
                  · intro z hz
                    rcases List.mem_cons.1 hz with hz' | hz'
                    · rw [hz']; exact hnN
                    · exact hVN hz'
                  · exact edges_subset_nodes g n
            | false =>
                rw [hn] at h
                have hr : r = (false, v', s'.erase n) := (Option.some_inj.1 h).symm
                subst hr
                have hs : s' = n :: S := h2 rfl
                refine ⟨fun x hx => h1 x (List.mem_cons_of_mem _ hx),
                  h1 n (by simp), ?_, ?_, ?_⟩
                · intro _
                  rw [hs]
                  exact List.erase_cons_head n S
                · intro hnd hnV
                  exact h3 (by simp [hnd, hnV])
                · intro hVN hnN
                  apply h4
                  · intro z hz
                    rcases List.mem_cons.1 hz with hz' | hz'
                    · rw [hz']; exact hnN
                    · exact hVN hz'
                  · exact edges_subset_nodes g n
      constructor
      · exact hvisit
      · intro ys
        induction ys with
        | nil =>
            intro V S r h
            rw [dfsNbrs_nil] at h
            have hr : r = (false, V, S) := (Option.some_inj.1 h).symm
            subst hr
            exact ⟨fun x hx => hx, fun _ => rfl, fun h => h, fun h _ => h⟩
        | cons y ys ihys =>
            intro V S r h
            rw [dfsNbrs_cons] at h
            by_cases hyV : y ∈ V
            · rw [if_pos hyV] at h
              by_cases hyS : y ∈ S
              · rw [if_pos hyS] at h
                have hr : r = (true, V, S) := (Option.some_inj.1 h).symm
                subst hr
                refine ⟨fun x hx => hx, ?_, fun h => h, fun h _ => h⟩
                intro hfalse
                exact absurd hfalse (by simp)
              · rw [if_neg hyS] at h
                obtain ⟨h1, h2, h3, h4⟩ := ihys V S r h
                exact ⟨h1, h2, h3, fun hV hys =>
                  h4 hV (fun z hz => hys z (List.mem_cons_of_mem _ hz))⟩
            · rw [if_neg hyV] at h
              cases hv : dfsVisit g (fuel + 1) y V S with
              | none => rw [hv] at h; exact Option.noConfusion h
              | some x =>
                  obtain ⟨b, v', s'⟩ := x
                  obtain ⟨g1, g2, g3, g4, g5⟩ := hvisit y V S (b, v', s') hv
                  cases b with
                  | true =>
                      rw [hv] at h
                      have hr : r = (true, v', s') := (Option.some_inj.1 h).symm
                      subst hr
                      refine ⟨g1, ?_, fun hnd => g4 hnd hyV, ?_⟩
                      · intro hfalse; exact absurd hfalse (by simp)
                      · intro hVN hys
                        exact g5 hVN (hys y (by simp))
                  | false =>
                      rw [hv] at h
                      have hs : s' = S := g3 rfl
                      obtain ⟨h1, h2, h3, h4⟩ := ihys v' s' r h
                      refine ⟨fun x hx => h1 x (g1 x hx), ?_, ?_, ?_⟩
                      · intro hfalse
                        rw [h2 hfalse, hs]
                      · intro hnd
                        exact h3 (g4 hnd hyV)
                      · intro hVN hys
                        exact h4 (g5 hVN (hys y (by simp)))
                          (fun z hz => hys z (List.mem_cons_of_mem _ hz))

lemma dfs_suff :
    ∀ (g : WFG) (fuel : Nat),
      (∀ (n : String) (V S : List String),
        V.Nodup → V ⊆ nodesOf g → n ∈ nodesOf g → n ∉ V →
        (nodesOf g).length ≤ fuel + V.length →
        (dfsVisit g fuel n V S).isSome) ∧
      (∀ (ys : List String) (V S : List String),
        V.Nodup → V ⊆ nodesOf g → (∀ y ∈ ys, y ∈ nodesOf g) →
        (nodesOf g).length ≤ fuel + V.length →
        (dfsNbrs g fuel ys V S).isSome) := by
  intro g fuel
  induction fuel with
  | zero =>
      constructor
      · intro n V S hnd hVN hnN hnV hlen
        exfalso
        have hsub : (n :: V) ⊆ nodesOf g := by
          intro z hz
          rcases List.mem_cons.1 hz with hz' | hz'
          · rw [hz']; exact hnN
          · exact hVN hz'
        have hnd' : (n :: V).Nodup := by simp [hnd, hnV]
        have := (List.subperm_of_subset hnd' hsub).length_le
        simp at this
        omega
      · intro ys
        induction ys with
        | nil => intro V S _ _ _ _; rw [dfsNbrs_nil]; rfl
        | cons y ys ihys =>
            intro V S hnd hVN hys hlen
            rw [dfsNbrs_cons]
            by_cases hyV : y ∈ V
            · rw [if_pos hyV]
              by_cases hyS : y ∈ S
              · rw [if_pos hyS]; rfl
              · rw [if_neg hyS]
                exact ihys V S hnd hVN
                  (fun z hz => hys z (List.mem_cons_of_mem _ hz)) hlen
            · rw [if_neg hyV]
              exfalso
              have hsub : (y :: V) ⊆ nodesOf g := by
                intro z hz
                rcases List.mem_cons.1 hz with hz' | hz'
                · rw [hz']; exact hys y (by simp)
                · exact hVN hz'
              have hnd' : (y :: V).Nodup := by simp [hnd, hyV]
              have := (List.subperm_of_subset hnd' hsub).length_le
              simp at this
              omega
  | succ fuel ih =>
      have hvisit : ∀ (n : String) (V S : List String),
          V.Nodup → V ⊆ nodesOf g → n ∈ nodesOf g → n ∉ V →
          (nodesOf g).length ≤ (fuel + 1) + V.length →
          (dfsVisit g (fuel + 1) n V S).isSome := by
        intro n V S hnd hVN hnN hnV hlen
        rw [dfsVisit_succ]
        have hn : (dfsNbrs g fuel (edges g n) (n :: V) (n :: S)).isSome := by
          apply ih.2 (edges g n) (n :: V) (n :: S)
          · simp [hnd, hnV]
          · intro z hz
            rcases List.mem_cons.1 hz with hz' | hz'
            · rw [hz']; exact hnN
            · exact hVN hz'
          · exact edges_subset_nodes g n
          · simp only [List.length_cons]
            omega
        cases hres : dfsNbrs g fuel (edges g n) (n :: V) (n :: S) with
        | none => rw [hres] at hn; exact absurd hn (by simp)
        | some x =>
            obtain ⟨b, v', s'⟩ := x
            cases b <;> rfl
      constructor
      · exact hvisit
      · intro ys
        induction ys with
        | nil => intro V S _ _ _ _; rw [dfsNbrs_nil]; rfl
        | cons y ys ihys =>
            intro V S hnd hVN hys hlen
            rw [dfsNbrs_cons]
            by_cases hyV : y ∈ V
            · rw [if_pos hyV]
              by_cases hyS : y ∈ S
              · rw [if_pos hyS]; rfl
              · rw [if_neg hyS]
                exact ihys V S hnd hVN
                  (fun z hz => hys z (List.mem_cons_of_mem _ hz)) hlen
            · rw [if_neg hyV]
              have hyN : y ∈ nodesOf g := hys y (by simp)
              have hv : (dfsVisit g (fuel + 1) y V S).isSome :=
                hvisit y V S hnd hVN hyN hyV hlen
              cases hres : dfsVisit g (fuel + 1) y V S with
              | none => rw [hres] at hv; exact absurd hv (by simp)
              | some x =>
                  obtain ⟨b, v', s'⟩ := x
                  cases b with
                  | true => rfl
                  | false =>
                      obtain ⟨g1, _, _, g4, g5⟩ :=
                        ((dfs_state g (fuel + 1)).1) y V S (false, v', s') hres
                      have hnd' : v'.Nodup := g4 hnd hyV
                      have hVv : V ⊆ v' := fun z hz => g1 z hz
                      have hlenv : V.length ≤ v'.length :=
                        (List.subperm_of_subset hnd hVv).length_le
                      apply ihys v' s' hnd' (g5 hVN hyN)
                        (fun z hz => hys z (List.mem_cons_of_mem _ hz))
                      omega

/-- The recursion stack (newest node first) is a chain of edges: each node
on the stack has an edge to the node pushed directly above it. -/
def stackChain (g : WFG) (S : List String) : Prop :=
  List.Chain' (fun a b => edgeMem g b a) S

/-- The top of the stack (if any) has an edge to the node being visited. -/
def headEdge (g : WFG) (S : List String) (n : String) : Prop :=
  match S with
  | [] => True
  | t :: _ => edgeMem g t n

lemma reach_snoc {g : WFG} {a b c : String} (h : Reach g a b)
    (he : edgeMem g b c) : Reach g a c := by
  induction h with
  | refl a => exact Reach.step he (Reach.refl c)
  | step hab _ ih => exact Reach.step hab (ih he)

lemma chain_mem_reach (g : WFG) :
    ∀ (rest : List String) (t : String), stackChain g (t :: rest) →
      ∀ y ∈ t :: rest, Reach g y t := by
  intro rest
  induction rest with
  | nil =>
      intro t _ y hy
      have : y = t := by simpa using hy
      rw [this]
      exact Reach.refl t
  | cons b rest ih =>
      intro t hchain y hy
      have hc := List.chain'_cons.1 hchain
      rcases List.mem_cons.1 hy with hy' | hy'
      · rw [hy']
        exact Reach.refl t
      · have := ih b hc.2 y hy'
        exact reach_snoc this hc.1

lemma dfs_sound :
    ∀ (g : WFG) (fuel : Nat),
      (∀ (n : String) (V S : List String) r,
        dfsVisit g fuel n V S = some r → r.1 = true →
        stackChain g S → headEdge g S n →
        HasCycle g ∧ ∃ hd rest, r.2.2 = hd :: rest ∧ stackChain g r.2.2 ∧
          ∃ y ∈ r.2.2, edgeMem g hd y ∧ Reach g y hd) ∧
      (∀ (ys V : List String) (n : String) (S₀ : List String) r,
        dfsNbrs g fuel ys V (n :: S₀) = some r → r.1 = true →
        stackChain g (n :: S₀) → (∀ y ∈ ys, edgeMem g n y) →
        HasCycle g ∧ ∃ hd rest, r.2.2 = hd :: rest ∧ stackChain g r.2.2 ∧
          ∃ y ∈ r.2.2, edgeMem g hd y ∧ Reach g y hd) := by
  intro g fuel
  induction fuel with
  | zero =>
      constructor
      · intro n V S r h
        rw [dfsVisit_zero] at h
        exact Option.noConfusion h
      · intro ys
        induction ys with
        | nil =>
            intro V n S₀ r h htrue _ _
            rw [dfsNbrs_nil] at h
            have hr : r = (false, V, n :: S₀) := (Option.some_inj.1 h).symm
            rw [hr] at htrue
            exact absurd htrue (by simp)
        | cons y ys ihys =>
            intro V n S₀ r h htrue hchain hys
            rw [dfsNbrs_cons] at h
            by_cases hyV : y ∈ V
            · rw [if_pos hyV] at h
              by_cases hyS : y ∈ n :: S₀
              · rw [if_pos hyS] at h
                have hr : r = (true, V, n :: S₀) := (Option.some_inj.1 h).symm
                subst hr
                have hreach : Reach g y n := chain_mem_reach g S₀ n hchain y hyS
                have hedge : edgeMem g n y := hys y (by simp)
                exact ⟨⟨n, y, hedge, hreach⟩, n, S₀, rfl, hchain,
                  y, hyS, hedge, hreach⟩
              · rw [if_neg hyS] at h
                exact ihys V n S₀ r h htrue hchain
                  (fun z hz => hys z (List.mem_cons_of_mem _ hz))
            · rw [if_neg hyV] at h
              rw [dfsVisit_zero] at h
              exact Option.noConfusion h
  | succ fuel ih =>
      have hvisit : ∀ (n : String) (V S : List String) r,
          dfsVisit g (fuel + 1) n V S = some r → r.1 = true →
          stackChain g S → headEdge g S n →
          HasCycle g ∧ ∃ hd rest, r.2.2 = hd :: rest ∧ stackChain g r.2.2 ∧
            ∃ y ∈ r.2.2, edgeMem g hd y ∧ Reach g y hd := by
        intro n V S r h htrue hchain hhead
        rw [dfsVisit_succ] at h
        have hchain' : stackChain g (n :: S) := by
          cases S with
          | nil => simp [stackChain]
          | cons t rest =>
              exact List.chain'_cons.2 ⟨hhead, hchain⟩
        cases hn : dfsNbrs g fuel (edges g n) (n :: V) (n :: S) with
        | none => rw [hn] at h; exact Option.noConfusion h
        | some x =>
            obtain ⟨b, v', s'⟩ := x
            cases b with
            | true =>
                rw [hn] at h
                have hr : r = (true, v', s') := (Option.some_inj.1 h).symm
                subst hr
                exact ih.2 (edges g n) (n :: V) n S (true, v', s') hn rfl
                  hchain' (fun y hy => hy)
            | false =>
                rw [hn] at h
                have hr : r = (false, v', s'.erase n) := (Option.some_inj.1 h).symm
                rw [hr] at htrue
                exact absurd htrue (by simp)
      constructor
      · exact hvisit
      · intro ys
        induction ys with
        | nil =>
            intro V n S₀ r h htrue _ _
            rw [dfsNbrs_nil] at h
            have hr : r = (false, V, n :: S₀) := (Option.some_inj.1 h).symm
            rw [hr] at htrue
            exact absurd htrue (by simp)
        | cons y ys ihys =>
            intro V n S₀ r h htrue hchain hys
            rw [dfsNbrs_cons] at h
            by_cases hyV : y ∈ V
            · rw [if_pos hyV] at h
              by_cases hyS : y ∈ n :: S₀
              · rw [if_pos hyS] at h
                have hr : r = (true, V, n :: S₀) := (Option.some_inj.1 h).symm
                subst hr
                have hreach : Reach g y n := chain_mem_reach g S₀ n hchain y hyS
                have hedge : edgeMem g n y := hys y (by simp)
                exact ⟨⟨n, y, hedge, hreach⟩, n, S₀, rfl, hchain,
                  y, hyS, hedge, hreach⟩
              · rw [if_neg hyS] at h
                exact ihys V n S₀ r h htrue hchain
                  (fun z hz => hys z (List.mem_cons_of_mem _ hz))
            · rw [if_neg hyV] at h
              cases hv : dfsVisit g (fuel + 1) y V (n :: S₀) with
              | none => rw [hv] at h; exact Option.noConfusion h
              | some x =>
                  obtain ⟨b, v', s'⟩ := x
                  cases b with
                  | true =>
                      rw [hv] at h
                      have hr : r = (true, v', s') := (Option.some_inj.1 h).symm
                      subst hr
                      exact hvisit y V (n :: S₀) (true, v', s') hv rfl hchain
                        (hys y (by simp))
                  | false =>
                      rw [hv] at h
                      have hs : s' = n :: S₀ :=
                        ((dfs_state g (fuel + 1)).1 y V (n :: S₀)
                          (false, v', s') hv).2.2.1 rfl
                      rw [hs] at h
                      exact ihys v' n S₀ r h htrue hchain
                        (fun z hz => hys z (List.mem_cons_of_mem _ hz))

/-- Finished ("black") nodes listed newest first; every successor of a
black node finished strictly earlier (appears further down the list). -/
def blackOrd (g : WFG) : List String → Prop
  | [] => True
  | b :: rest => (∀ y ∈ edges g b, y ∈ rest) ∧ blackOrd g rest

lemma blackOrd_edges_mem (g : WFG) :
    ∀ B, blackOrd g B → ∀ b ∈ B, ∀ y ∈ edges g b, y ∈ B := by
  intro B
  induction B with
  | nil => intro _ b hb; simp at hb
  | cons x rest ih =>
      intro hbo b hb y hy
      obtain ⟨hx, hrest⟩ := hbo
      rcases List.mem_cons.1 hb with hb' | hb'
      · subst hb'
        exact List.mem_cons_of_mem _ (hx y hy)
      · exact List.mem_cons_of_mem _ (ih hrest b hb' y hy)

lemma blackOrd_reach_mem (g : WFG) (B : List String) (hbo : blackOrd g B)
    {b c : String} (hb : b ∈ B) (hr : Reach g b c) : c ∈ B := by
  induction hr with
  | refl a => exact hb
  | step hab _ ih => exact ih (blackOrd_edges_mem g B hbo _ hb _ hab)

lemma blackOrd_acyclic (g : WFG) :
    ∀ B, blackOrd g B → ∀ a ∈ B, ∀ b, edgeMem g a b → Reach g b a → False := by
  intro B
  induction B with
  | nil => intro _ a ha; simp at ha
  | cons x rest ih =>
      intro hbo a ha b hedge hreach
      obtain ⟨hx, hrest⟩ := hbo
      rcases List.mem_cons.1 ha with ha' | ha'
      · subst ha'
        have hb : b ∈ rest := hx b hedge
        have hx' : a ∈ rest := blackOrd_reach_mem g rest hrest hb hreach
        exact ih hrest a hx' b hedge hreach
      · exact ih hrest a ha' b hedge hreach

lemma dfs_comp :
    ∀ (g : WFG) (fuel : Nat),
      (∀ (n : String) (V S B : List String) r,
        dfsVisit g fuel n V S = some r → r.1 = false →
        (∀ x, x ∈ V ↔ (x ∈ S ∨ x ∈ B)) → blackOrd g B →
        ∃ B', (∀ x, x ∈ r.2.1 ↔ (x ∈ S ∨ x ∈ B')) ∧ blackOrd g B' ∧
          (∀ x ∈ B, x ∈ B') ∧ n ∈ B') ∧
      (∀ (ys V S B : List String) r,
        dfsNbrs g fuel ys V S = some r → r.1 = false →
        (∀ x, x ∈ V ↔ (x ∈ S ∨ x ∈ B)) → blackOrd g B →
        ∃ B', (∀ x, x ∈ r.2.1 ↔ (x ∈ S ∨ x ∈ B')) ∧ blackOrd g B' ∧
          (∀ x ∈ B, x ∈ B') ∧ (∀ y ∈ ys, y ∈ B')) := by
  intro g fuel
  induction fuel with
  | zero =>
      constructor
      · intro n V S B r h
        rw [dfsVisit_zero] at h
        exact Option.noConfusion h
      · intro ys
        induction ys with
        | nil =>
            intro V S B r h _ hpart hbo
            rw [dfsNbrs_nil] at h
            have hr : r = (false, V, S) := (Option.some_inj.1 h).symm
            subst hr
            exact ⟨B, hpart, hbo, fun x hx => hx, by simp⟩
        | cons y ys ihys =>
            intro V S B r h hfalse hpart hbo
            rw [dfsNbrs_cons] at h
            by_cases hyV : y ∈ V
            · rw [if_pos hyV] at h
              by_cases hyS : y ∈ S
              · rw [if_pos hyS] at h
                have hr : r = (true, V, S) := (Option.some_inj.1 h).symm
                rw [hr] at hfalse
                exact absurd hfalse (by simp)
              · rw [if_neg hyS] at h
                have hyB : y ∈ B := by
                  rcases (hpart y).1 hyV with h' | h'
                  · exact absurd h' hyS
                  · exact h'
                obtain ⟨B', hp', hbo', hBB', hys'⟩ := ihys V S B r h hfalse hpart hbo
                refine ⟨B', hp', hbo', hBB', ?_⟩
                intro z hz
                rcases List.mem_cons.1 hz with hz' | hz'
                · rw [hz']; exact hBB' y hyB
                · exact hys' z hz'
            · rw [if_neg hyV] at h
              rw [dfsVisit_zero] at h
              exact Option.noConfusion h
  | succ fuel ih =>
      have hvisit : ∀ (n : String) (V S B : List String) r,
          dfsVisit g (fuel + 1) n V S = some r → r.1 = false →
          (∀ x, x ∈ V ↔ (x ∈ S ∨ x ∈ B)) → blackOrd g B →
          ∃ B', (∀ x, x ∈ r.2.1 ↔ (x ∈ S ∨ x ∈ B')) ∧ blackOrd g B' ∧
            (∀ x ∈ B, x ∈ B') ∧ n ∈ B' := by
        intro n V S B r h hfalse hpart hbo
        rw [dfsVisit_succ] at h
        cases hn : dfsNbrs g fuel (edges g n) (n :: V) (n :: S) with
        | none => rw [hn] at h; exact Option.noConfusion h
        | some x =>
            obtain ⟨b, v', s'⟩ := x
            cases b with
            | true =>
                rw [hn] at h
                have hr : r = (true, v', s') := (Option.some_inj.1 h).symm
                rw [hr] at hfalse
                exact absurd hfalse (by simp)
            | false =>
                rw [hn] at h
                have hr : r = (false, v', s'.erase n) := (Option.some_inj.1 h).symm
                subst hr
                have hpart' : ∀ x, x ∈ (n :: V) ↔ (x ∈ (n :: S) ∨ x ∈ B) := by
                  intro x
                  constructor
                  · intro hx
                    rcases List.mem_cons.1 hx with hx' | hx'
                    · exact Or.inl (by rw [hx']; simp)
                    · rcases (hpart x).1 hx' with h' | h'
                      · exact Or.inl (List.mem_cons_of_mem _ h')
                      · exact Or.inr h'
                  · intro hx
                    rcases hx with hx' | hx'
                    · rcases List.mem_cons.1 hx' with hx'' | hx''
                      · rw [hx'']; simp
                      · exact List.mem_cons_of_mem _ ((hpart x).2 (Or.inl hx''))
                    · exact List.mem_cons_of_mem _ ((hpart x).2 (Or.inr hx'))
                obtain ⟨B'', hp'', hbo'', hBB'', hys''⟩ :=
                  ih.2 (edges g n) (n :: V) (n :: S) B (false, v', s') hn rfl
                    hpart' hbo
                refine ⟨n :: B'', ?_, ⟨hys'', hbo''⟩, ?_, by simp⟩
                · intro x
                  have := hp'' x
                  constructor
                  · intro hx
                    rcases (this.1 hx) with h' | h'
                    · rcases List.mem_cons.1 h' with h'' | h''
                      · exact Or.inr (by rw [h'']; simp)
                      · exact Or.inl h''
                    · exact Or.inr (List.mem_cons_of_mem _ h')
                  · intro hx
                    rcases hx with h' | h'
                    · exact this.2 (Or.inl (List.mem_cons_of_mem _ h'))
                    · rcases List.mem_cons.1 h' with h'' | h''
                      · exact this.2 (Or.inl (by rw [h'']; simp))
                      · exact this.2 (Or.inr h'')
                · intro x hx
                  exact List.mem_cons_of_mem _ (hBB'' x hx)
      constructor
      · exact hvisit
      · intro ys
        induction ys with
        | nil =>
            intro V S B r h _ hpart hbo
            rw [dfsNbrs_nil] at h
            have hr : r = (false, V, S) := (Option.some_inj.1 h).symm
            subst hr
            exact ⟨B, hpart, hbo, fun x hx => hx, by simp⟩
        | cons y ys ihys =>
            intro V S B r h hfalse hpart hbo
            rw [dfsNbrs_cons] at h
            by_cases hyV : y ∈ V
            · rw [if_pos hyV] at h
              by_cases hyS : y ∈ S
              · rw [if_pos hyS] at h
                have hr : r = (true, V, S) := (Option.some_inj.1 h).symm
                rw [hr] at hfalse
                exact absurd hfalse (by simp)
              · rw [if_neg hyS] at h
                have hyB : y ∈ B := by
                  rcases (hpart y).1 hyV with h' | h'
                  · exact absurd h' hyS
                  · exact h'
                obtain ⟨B', hp', hbo', hBB', hys'⟩ := ihys V S B r h hfalse hpart hbo
                refine ⟨B', hp', hbo', hBB', ?_⟩
                intro z hz
                rcases List.mem_cons.1 hz with hz' | hz'
                · rw [hz']; exact hBB' y hyB
                · exact hys' z hz'
            · rw [if_neg hyV] at h
              cases hv : dfsVisit g (fuel + 1) y V S with
              | none => rw [hv] at h; exact Option.noConfusion h
              | some x =>
                  obtain ⟨b, v', s'⟩ := x
                  cases b with
                  | true =>
                      rw [hv] at h
                      have hr : r = (true, v', s') := (Option.some_inj.1 h).symm
                      rw [hr] at hfalse
                      exact absurd hfalse (by simp)
                  | false =>
                      rw [hv] at h
                      have hs : s' = S :=
                        ((dfs_state g (fuel + 1)).1 y V S (false, v', s') hv).2.2.1
                          rfl
                      obtain ⟨B'', hp'', hbo'', hBB'', hyB''⟩ :=
                        hvisit y V S B (false, v', s') hv rfl hpart hbo
                      rw [hs] at h
                      obtain ⟨B₃, hp₃, hbo₃, hB₃, hys₃⟩ :=
                        ihys v' S B'' r h hfalse hp'' hbo''
                      refine ⟨B₃, hp₃, hbo₃, ?_, ?_⟩
                      · intro x hx
                        exact hB₃ x (hBB'' x hx)
                      · intro z hz
                        rcases List.mem_cons.1 hz with hz' | hz'
                        · rw [hz']; exact hB₃ y hyB''
                        · exact hys₃ z hz'

lemma detectLoop_suff (g : WFG) :
    ∀ (ks V S : List String), V.Nodup → V ⊆ nodesOf g →
      (∀ k ∈ ks, k ∈ nodesOf g) →
      (detectLoop g (nodesOf g).length ks V S).isSome := by
  intro ks
  induction ks with
  | nil => intro V S _ _ _; simp [detectLoop]
  | cons k ks ih =>
      intro V S hnd hVN hks
      simp only [detectLoop]
      by_cases hkV : k ∈ V
      · rw [if_pos hkV]
        exact ih V S hnd hVN (fun x hx => hks x (List.mem_cons_of_mem _ hx))
      · rw [if_neg hkV]
        have hkN : k ∈ nodesOf g := hks k (by simp)
        have hv := (dfs_suff g (nodesOf g).length).1 k V S hnd hVN hkN hkV
          (by omega)
        cases hdv : dfsVisit g (nodesOf g).length k V S with
        | none => rw [hdv] at hv; simp at hv
        | some x =>
            obtain ⟨b, v', s'⟩ := x
            cases b with
            | true => simp
            | false =>
                have hst := (dfs_state g (nodesOf g).length).1 k V S
                  (false, v', s') hdv
                exact ih v' s' (hst.2.2.2.1 hnd hkV)
                  (hst.2.2.2.2 hVN hkN)
                  (fun x hx => hks x (List.mem_cons_of_mem _ hx))

lemma detectLoop_sound (g : WFG) (fuel : Nat) :
    ∀ (ks V dl : List String), detectLoop g fuel ks V [] = some dl →
      dl ≠ [] →
      HasCycle g ∧ ∃ hd rest, dl = hd :: rest ∧
        ∃ y ∈ dl, edgeMem g hd y ∧ Reach g y hd := by
  intro ks
  induction ks with
  | nil =>
      intro V dl h hne
      simp only [detectLoop] at h
      exact absurd (Option.some_inj.1 h).symm hne
  | cons k ks ih =>
      intro V dl h hne
      simp only [detectLoop] at h
      by_cases hkV : k ∈ V
      · rw [if_pos hkV] at h
        exact ih V dl h hne
      · rw [if_neg hkV] at h
        cases hdv : dfsVisit g fuel k V [] with
        | none => rw [hdv] at h; exact Option.noConfusion h
        | some x =>
            obtain ⟨b, v', s'⟩ := x
            cases b with
            | true =>
                rw [hdv] at h
                have hdl : s' = dl := Option.some_inj.1 h
                obtain ⟨hcyc, hd, rest, hstk, _, y, hy, hedge, hreach⟩ :=
                  (dfs_sound g fuel).1 k V [] (true, v', s') hdv rfl
                    (by simp [stackChain]) (by unfold headEdge; trivial)
                exact ⟨hcyc, hd, rest, hdl ▸ hstk, y, hdl ▸ hy, hedge, hreach⟩
            | false =>
                rw [hdv] at h
                have hs : s' = [] :=
                  ((dfs_state g fuel).1 k V [] (false, v', s') hdv).2.2.1 rfl
                rw [hs] at h
                exact ih v' dl h hne

lemma detectLoop_comp (g : WFG) (fuel : Nat) :
    ∀ (ks V B : List String), (∀ x, x ∈ V ↔ x ∈ B) → blackOrd g B →
      detectLoop g fuel ks V [] = some [] →
      ∃ B', blackOrd g B' ∧ (∀ x ∈ B, x ∈ B') ∧ ∀ k ∈ ks, k ∈ B' := by
  intro ks
  induction ks with
  | nil =>
      intro V B hpart hbo _
      exact ⟨B, hbo, fun x hx => hx, by simp⟩
  | cons k ks ih =>
      intro V B hpart hbo h
      simp only [detectLoop] at h
      by_cases hkV : k ∈ V
      · rw [if_pos hkV] at h
        obtain ⟨B', hbo', hBB', hks'⟩ := ih V B hpart hbo h
        refine ⟨B', hbo', hBB', ?_⟩
        intro z hz
        rcases List.mem_cons.1 hz with hz' | hz'
        · rw [hz']; exact hBB' k ((hpart k).1 hkV)
        · exact hks' z hz'
      · rw [if_neg hkV] at h
        cases hdv : dfsVisit g fuel k V [] with
        | none => rw [hdv] at h; exact Option.noConfusion h
        | some x =>
            obtain ⟨b, v', s'⟩ := x
            cases b with
            | true =>
                rw [hdv] at h
                have hdl : s' = [] := Option.some_inj.1 h
                obtain ⟨_, hd, rest, hstk, _⟩ :=
                  (dfs_sound g fuel).1 k V [] (true, v', s') hdv rfl
                    (by simp [stackChain]) (by unfold headEdge; trivial)
                rw [hdl] at hstk
                exact List.noConfusion hstk
            | false =>
                rw [hdv] at h
                have hs : s' = [] :=
                  ((dfs_state g fuel).1 k V [] (false, v', s') hdv).2.2.1 rfl
                rw [hs] at h
                have hpart0 : ∀ x, x ∈ V ↔ (x ∈ ([] : List String) ∨ x ∈ B) := by
                  intro x; rw [hpart x]; simp
                obtain ⟨B'', hp'', hbo'', hBB'', hkB''⟩ :=
                  (dfs_comp g fuel).1 k V [] B (false, v', s') hdv rfl
                    hpart0 hbo
                have hp2 : ∀ x, x ∈ v' ↔ x ∈ B'' := by
                  intro x
                  have := hp'' x
                  simpa using this
                obtain ⟨B₃, hbo₃, hB₃, hks₃⟩ := ih v' B'' hp2 hbo'' h
                refine ⟨B₃, hbo₃, ?_, ?_⟩
                · intro x hx
                  exact hB₃ x (hBB'' x hx)
                · intro z hz
                  rcases List.mem_cons.1 hz with hz' | hz'
                  · rw [hz']; exact hB₃ k hkB''
                  · exact hks₃ z hz'

/-- C9: for every wait-for graph, `detect_deadlock_wait_for_graph` terminates
(the entry fuel suffices) and returns `deadlock_detected = true` iff the graph
has a directed cycle (edges read off the supplied mapping, nodes absent as
keys having no successors).  When a cycle is detected, `deadlocked_processes`
is the nonempty recursion-stack snapshot at the first back edge: its head has
an edge to some member of the snapshot that in turn reaches the head, so the
snapshot contains one cycle (not necessarily minimal, not necessarily every
deadlocked process).  When no cycle exists the reported list is empty. -/
theorem detect_deadlock_wait_for_graph_iff_cycle (g : WFG) :
    ∃ r, detect_deadlock_wait_for_graph g = some r ∧
      (r.deadlock_detected = true ↔ HasCycle g) ∧
      (r.deadlock_detected = true →
        ∃ hd rest, r.deadlocked_processes = hd :: rest ∧
          ∃ y ∈ r.deadlocked_processes, edgeMem g hd y ∧ Reach g y hd) ∧
      (r.deadlock_detected = false → r.deadlocked_processes = []) := by
  have hsome := detectLoop_suff g (g.map (·.1)) [] [] List.nodup_nil
    (by intro x hx; simp at hx) (keys_subset_nodes g)
  cases hdl : detectLoop g (nodesOf g).length (g.map (·.1)) [] [] with
  | none => rw [hdl] at hsome; simp at hsome
  | some dl =>
      refine ⟨⟨decide (0 < dl.length), dl,
          if 0 < dl.length then
            "Deadlock detected among processes: " ++ toString dl
          else "No deadlock detected"⟩,
        by unfold detect_deadlock_wait_for_graph; rw [hdl], ?_, ?_, ?_⟩
      · constructor
        · intro hdet
          have hpos : 0 < dl.length := of_decide_eq_true hdet
          have hne : dl ≠ [] := List.ne_nil_of_length_pos hpos
          exact (detectLoop_sound g (nodesOf g).length (g.map (·.1)) [] dl
            hdl hne).1
        · intro hcyc
          by_contra hdet
          have hdet' : decide (0 < dl.length) = false :=
            Bool.not_eq_true _ ▸ (by simpa using hdet)
          have hlen : ¬ 0 < dl.length := of_decide_eq_false hdet'
          have hdlnil : dl = [] := by
            cases dl with
            | nil => rfl
            | cons a as => simp at hlen
          rw [hdlnil] at hdl
          obtain ⟨B', hbo', _, hks'⟩ := detectLoop_comp g (nodesOf g).length
            (g.map (·.1)) [] [] (by intro x; rfl) trivial hdl
          obtain ⟨a, b, hedge, hreach⟩ := hcyc
          exact blackOrd_acyclic g B' hbo' a
            (hks' a (key_of_edge g a b hedge)) b hedge hreach
      · intro hdet
        have hpos : 0 < dl.length := of_decide_eq_true hdet
        have hne : dl ≠ [] := List.ne_nil_of_length_pos hpos
        obtain ⟨_, hd, rest, heq, y, hy, hedge, hreach⟩ :=
          detectLoop_sound g (nodesOf g).length (g.map (·.1)) [] dl hdl hne
        exact ⟨hd, rest, heq, y, hy, hedge, hreach⟩
      · intro hdet
        have hlen : ¬ 0 < dl.length := of_decide_eq_false hdet
        cases dl with
        | nil => rfl
        | cons a as => simp at hlen
